import Mathlib

/-!
Verification of the name-allocation and checkpoint-store core of the
`persistent_storage_system` repository, as a shallow embedding in Lean.

The filesystem is modelled as a `Finset String` of existing paths (for the
path-allocation helpers of `helpers_storage.py`), as a `Finset (List String)`
of component lists (for the backup helper, which splits paths on the
separator), and as an existence set plus a pickled-content map (for the
`MLStorage` checkpoint store of `shared_storage3.py`).
-/

/-! ## Association-list helpers (Python `dict` operations) -/

/-- Lookup in an association list, the semantics of Python `d[k]` /
`k in d` on a dict represented as an insertion-ordered list of pairs. -/
def alookup {β : Type} (k : String) : List (String × β) → Option β
  | [] => none
  | (k', v) :: rest => if k = k' then some v else alookup k rest

/-- Python `d[k] = v` on an insertion-ordered dict: replace in place if the
key is present, append otherwise. -/
def insertReplace {β : Type} : List (String × β) → String → β → List (String × β)
  | [], k, v => [(k, v)]
  | (k', v') :: rest, k, v =>
      if k = k' then (k, v) :: rest else (k', v') :: insertReplace rest k v

/-- Number of entries of an association list carrying a given key. -/
def keyCount {β : Type} (k : String) : List (String × β) → Nat
  | [] => 0
  | (k', _) :: rest => (if k = k' then 1 else 0) + keyCount k rest

theorem alookup_insertReplace_self {β : Type} (l : List (String × β)) (k : String) (v : β) :
    alookup k (insertReplace l k v) = some v := by
  induction l with
  | nil => simp [insertReplace, alookup]
  | cons hd tl ih =>
      obtain ⟨k', v'⟩ := hd
      by_cases h : k = k' <;> simp [insertReplace, alookup, h, ih]

theorem alookup_insertReplace_ne {β : Type} (l : List (String × β)) (k k' : String) (v : β)
    (h : k' ≠ k) : alookup k' (insertReplace l k v) = alookup k' l := by
  induction l with
  | nil => simp [insertReplace, alookup, h]
  | cons hd tl ih =>
      obtain ⟨k₀, v₀⟩ := hd
      by_cases hk : k = k₀
      · subst hk; simp [insertReplace, alookup, h]
      · by_cases hk' : k' = k₀ <;> simp [insertReplace, alookup, hk, hk', ih]

theorem keys_insertReplace_mem {β : Type} (l : List (String × β)) (k : String) (v : β) (x : String) :
    x ∈ (insertReplace l k v).map Prod.fst ↔ x ∈ l.map Prod.fst ∨ x = k := by
  induction l with
  | nil => simp [insertReplace]
  | cons hd tl ih =>
      obtain ⟨k₀, v₀⟩ := hd
      by_cases hk : k = k₀
      · subst hk; simp [insertReplace]; tauto
      · simp [insertReplace, hk, ih]; tauto

theorem keys_nodup_insertReplace {β : Type} (l : List (String × β)) (k : String) (v : β)
    (h : (l.map Prod.fst).Nodup) : ((insertReplace l k v).map Prod.fst).Nodup := by
  induction l with
  | nil => simp [insertReplace]
  | cons hd tl ih =>
      obtain ⟨k₀, v₀⟩ := hd
      simp only [List.map_cons, List.nodup_cons] at h
      by_cases hk : k = k₀
      · subst hk; simpa [insertReplace] using h
      · simp only [insertReplace, if_neg hk, List.map_cons]
        refine List.nodup_cons.mpr ⟨?_, ih h.2⟩
        rw [keys_insertReplace_mem]
        rintro (hx | hx)
        · exact h.1 hx
        · exact hk hx.symm

theorem keyCount_eq_zero {β : Type} (l : List (String × β)) (k : String)
    (h : k ∉ l.map Prod.fst) : keyCount k l = 0 := by
  induction l with
  | nil => simp [keyCount]
  | cons hd tl ih =>
      obtain ⟨k₀, v₀⟩ := hd
      simp only [List.map_cons, List.mem_cons] at h
      push_neg at h
      simp [keyCount, h.1, ih h.2]

theorem keyCount_insertReplace {β : Type} (l : List (String × β)) (k : String) (v : β)
    (h : (l.map Prod.fst).Nodup) : keyCount k (insertReplace l k v) = 1 := by
  induction l with
  | nil => simp [insertReplace, keyCount]
  | cons hd tl ih =>
      obtain ⟨k₀, v₀⟩ := hd
      simp only [List.map_cons, List.nodup_cons] at h
      by_cases hk : k = k₀
      · subst hk
        simp [insertReplace, keyCount, keyCount_eq_zero tl k h.1]
      · simp [insertReplace, keyCount, hk, ih h.2]

theorem mem_of_alookup_eq_some {β : Type} {l : List (String × β)} {k : String} {v : β}
    (h : alookup k l = some v) : (k, v) ∈ l := by
  induction l with
  | nil => simp [alookup] at h
  | cons hd tl ih =>
      obtain ⟨k₀, v₀⟩ := hd
      by_cases hk : k = k₀
      · subst hk
        simp [alookup] at h
        simp [h]
      · simp [alookup, hk] at h
        exact List.mem_cons_of_mem _ (ih h)

theorem alookup_eq_some_of_mem {β : Type} {l : List (String × β)} {k : String} {v : β}
    (hnd : (l.map Prod.fst).Nodup) (h : (k, v) ∈ l) : alookup k l = some v := by
  induction l with
  | nil => simp at h
  | cons hd tl ih =>
      obtain ⟨k₀, v₀⟩ := hd
      simp only [List.map_cons, List.nodup_cons] at hnd
      rcases List.mem_cons.mp h with h₁ | h₁
      · simp only [Prod.mk.injEq] at h₁
        obtain ⟨rfl, rfl⟩ := h₁
        simp [alookup]
      · have hk : k ≠ k₀ := by
          rintro rfl
          exact hnd.1 (List.mem_map.mpr ⟨(k, v), h₁, rfl⟩)
        simp [alookup, hk, ih hnd.2 h₁]

theorem alookup_isSome_iff {β : Type} (l : List (String × β)) (k : String) :
    (alookup k l).isSome ↔ k ∈ l.map Prod.fst := by
  induction l with
  | nil => simp [alookup]
  | cons hd tl ih =>
      obtain ⟨k₀, v₀⟩ := hd
      by_cases hk : k = k₀ <;> simp [alookup, hk, ih]

theorem alookup_filter_ne {β : Type} (l : List (String × β)) (k p : String) (h : k ≠ p) :
    alookup k (l.filter (fun e => e.1 ≠ p)) = alookup k l := by
  induction l with
  | nil => simp [alookup]
  | cons hd tl ih =>
      obtain ⟨k₀, v₀⟩ := hd
      simp only [ne_eq, decide_not] at ih ⊢
      by_cases hp : k₀ = p
      · subst hp
        have hk : k ≠ k₀ := h
        simp [alookup, hk, ih]
      · by_cases hk : k = k₀ <;> simp [alookup, hk, hp, ih]

/-! ## List-append cancellation helpers -/

theorem app_cancel_left {α : Type} : ∀ (a b c : List α), a ++ b = a ++ c → b = c := by
  intro a
  induction a with
  | nil => intro b c h; simpa using h
  | cons hd tl ih =>
      intro b c h
      simp only [List.cons_append, List.cons.injEq] at h
      exact ih b c h.2

theorem app_cancel_right {α : Type} (a b c : List α) (h : a ++ c = b ++ c) : a = b := by
  have hl : a.length = b.length := by
    have := congrArg List.length h
    simp only [List.length_append] at this
    omega
  exact (List.append_inj h hl).1

/-! ## Pigeonhole for probe sequences

All the allocation loops probe pairwise-distinct candidate names, so over a
finite set of existing paths a free candidate is found within `card + 1`
probes. -/

theorem probe_free_exists {α : Type} [DecidableEq α] (S : Finset α) (f : ℕ → α)
    (hf : ∀ i j, f i = f j → i = j) : ∃ k, k ≤ S.card ∧ f k ∉ S := by
  by_contra hc
  push_neg at hc
  have hsub : (Finset.range (S.card + 1)).image f ⊆ S := by
    intro x hx
    rcases Finset.mem_image.mp hx with ⟨i, hi, rfl⟩
    exact hc i (Nat.lt_succ_iff.mp (Finset.mem_range.mp hi))
  have hcard := Finset.card_le_card hsub
  rw [Finset.card_image_of_injOn (fun i _ j _ h => hf i j h), Finset.card_range] at hcard
  omega

/-! ## Decimal rendering of counters

Python renders the probe counters with `f"_{add_id}"` / `f"{counter}"`; for a
positive integer this is its decimal digit string.  `decRepr` is that decimal
rendering (for `n ≥ 1`, matching Python's `str`), written with structural
fuel so that it reduces definitionally. -/

def decReprAux : Nat → Nat → List Char
  | 0, _ => []
  | _, 0 => []
  | f + 1, n + 1 => Nat.digitChar ((n + 1) % 10) :: decReprAux f ((n + 1) / 10)

/-- Decimal digit string of `n` (most-significant digit first); for `n ≥ 1`
this is exactly Python's `str(n)`. -/
def decRepr (n : Nat) : List Char := (decReprAux n n).reverse

theorem digitChar_lt10_ne_hash : ∀ d : Nat, d < 10 → Nat.digitChar d ≠ '#' := by
  intro d h
  interval_cases d <;> decide

theorem digitChar_lt10_ne_slash : ∀ d : Nat, d < 10 → Nat.digitChar d ≠ '/' := by
  intro d h
  interval_cases d <;> decide

theorem digitChar_lt10_inj : ∀ a b : Nat, a < 10 → b < 10 →
    Nat.digitChar a = Nat.digitChar b → a = b := by
  intro a b ha hb h
  interval_cases a <;> interval_cases b <;> simp_all <;> revert h <;> decide

theorem decReprAux_mem (f n : Nat) : ∀ c ∈ decReprAux f n, ∃ d, d < 10 ∧ c = Nat.digitChar d := by
  induction f generalizing n with
  | zero => simp [decReprAux]
  | succ f ih =>
      cases n with
      | zero => simp [decReprAux]
      | succ m =>
          intro c hc
          simp only [decReprAux, List.mem_cons] at hc
          rcases hc with hc | hc
          · exact ⟨(m + 1) % 10, Nat.mod_lt _ (by omega), hc⟩
          · exact ih _ c hc

theorem decRepr_mem (n : Nat) : ∀ c ∈ decRepr n, ∃ d, d < 10 ∧ c = Nat.digitChar d := by
  intro c hc
  exact decReprAux_mem n n c (List.mem_reverse.mp hc)

theorem decReprAux_inj : ∀ f₁ f₂ n₁ n₂ : Nat, n₁ ≤ f₁ → n₂ ≤ f₂ →
    decReprAux f₁ n₁ = decReprAux f₂ n₂ → n₁ = n₂ := by
  intro f₁
  induction f₁ with
  | zero =>
      intro f₂ n₁ n₂ h₁ h₂ h
      interval_cases n₁
      cases n₂ with
      | zero => rfl
      | succ m =>
          exfalso
          cases f₂ with
          | zero => omega
          | succ f => simp [decReprAux] at h
  | succ f ih =>
      intro f₂ n₁ n₂ h₁ h₂ h
      cases n₁ with
      | zero =>
          cases n₂ with
          | zero => rfl
          | succ m =>
              exfalso
              cases f₂ with
              | zero => omega
              | succ g => simp [decReprAux] at h
      | succ m₁ =>
          cases n₂ with
          | zero =>
              exfalso
              cases f₂ with
              | zero => simp [decReprAux] at h
              | succ g => simp [decReprAux] at h
          | succ m₂ =>
              cases f₂ with
              | zero => omega
              | succ g =>
                  simp only [decReprAux, List.cons.injEq] at h
                  have hd : (m₁ + 1) % 10 = (m₂ + 1) % 10 :=
                    digitChar_lt10_inj _ _ (Nat.mod_lt _ (by omega)) (Nat.mod_lt _ (by omega)) h.1
                  have ht : (m₁ + 1) / 10 = (m₂ + 1) / 10 := by
                    refine ih g _ _ ?_ ?_ h.2 <;> omega
                  omega

theorem decRepr_inj (a b : Nat) (h : decRepr a = decRepr b) : a = b := by
  have := congrArg List.reverse h
  simp only [decRepr, List.reverse_reverse] at this
  exact decReprAux_inj a b a b (le_refl _) (le_refl _) this

theorem decRepr_ne_nil (n : Nat) (h : 1 ≤ n) : decRepr n ≠ [] := by
  cases n with
  | zero => omega
  | succ m => simp [decRepr, decReprAux]

/-! ## `get_no_overwrite_path` (CollisionResolver, `helpers_storage.py` 146–163)

```python
def get_no_overwrite_path(file_path_no_suffix, suffix="", make_folders_on_path=True,
                          warn_if_already_exists=False):
    file_path = file_path_no_suffix + suffix
    old_file_path = file_path
    if osp.exists(file_path):
        add_id = 1
        file_path = file_path_no_suffix + f"_{add_id}{suffix}"
        while osp.exists(file_path):
            add_id += 1
            file_path = file_path_no_suffix + f"_{add_id}{suffix}"
    return file_path, old_file_path
```

The body performs no filesystem writes (despite the `make_folders_on_path`
parameter name, the function never calls `os.makedirs`), so the embedding
returns the filesystem unchanged alongside the resolved pair. -/

/-- The probed candidate `file_path_no_suffix + f"_{add_id}" + suffix`. -/
def sufName (b : String) (k : Nat) (s : String) : String :=
  b ++ "_" ++ ⟨decRepr k⟩ ++ s

theorem sufName_inj (b s : String) (k₁ k₂ : Nat) (h : sufName b k₁ s = sufName b k₂ s) :
    k₁ = k₂ := by
  have hdata : b.data ++ ('_' :: (decRepr k₁ ++ s.data)) =
      b.data ++ ('_' :: (decRepr k₂ ++ s.data)) := by
    have := congrArg String.data h
    simpa [sufName, String.data_append] using this
  have h₁ := app_cancel_left _ _ _ hdata
  simp only [List.cons.injEq, true_and] at h₁
  exact decRepr_inj _ _ (app_cancel_right _ _ _ h₁)

/-- The collision-probe `while` loop, with explicit fuel.  `none` models
non-termination, which `gnopLoop_isSome` below rules out at fuel
`card + 1`. -/
def gnopLoop (fs : Finset String) (b s : String) : Nat → Nat → Option String
  | 0, _ => none
  | f + 1, k =>
      let name := sufName b k s
      if name ∈ fs then gnopLoop fs b s f (k + 1) else some name

theorem gnopLoop_sound (fs : Finset String) (b s : String) :
    ∀ f k p, gnopLoop fs b s f k = some p →
      p ∉ fs ∧ ∃ j, k ≤ j ∧ p = sufName b j s := by
  intro f
  induction f with
  | zero => intro k p h; simp [gnopLoop] at h
  | succ f ih =>
      intro k p h
      by_cases hm : sufName b k s ∈ fs
      · simp only [gnopLoop, hm, if_true] at h
        obtain ⟨h₁, j, hj, hp⟩ := ih (k + 1) p h
        exact ⟨h₁, j, by omega, hp⟩
      · simp only [gnopLoop, hm, if_false] at h
        have hp := Option.some.inj h
        subst hp
        exact ⟨hm, k, le_refl _, rfl⟩

theorem gnopLoop_run (fs : Finset String) (b s : String) :
    ∀ f k, (∃ j, j < f ∧ sufName b (k + j) s ∉ fs) →
      ∃ p, gnopLoop fs b s f k = some p := by
  intro f
  induction f with
  | zero => intro k h; obtain ⟨j, hj, _⟩ := h; omega
  | succ f ih =>
      intro k h
      by_cases hm : sufName b k s ∈ fs
      · obtain ⟨j, hj, hfree⟩ := h
        have hj0 : j ≠ 0 := by
          rintro rfl
          exact hfree (by simpa using hm)
        obtain ⟨p, hp⟩ := ih (k + 1) ⟨j - 1, by omega, by
          have : k + 1 + (j - 1) = k + j := by omega
          rw [this]; exact hfree⟩
        exact ⟨p, by simp only [gnopLoop, hm, if_true]; exact hp⟩
      · exact ⟨sufName b k s, by simp [gnopLoop, hm]⟩

theorem gnopLoop_isSome (fs : Finset String) (b s : String) :
    (gnopLoop fs b s (fs.card + 1) 1).isSome := by
  obtain ⟨j, hj, hfree⟩ := probe_free_exists fs (fun j => sufName b (1 + j) s)
    (fun i j h => by have := sufName_inj b s _ _ h; omega)
  obtain ⟨p, hp⟩ := gnopLoop_run fs b s (fs.card + 1) 1 ⟨j, by omega, hfree⟩
  simp [hp]

/-- Embedding of `get_no_overwrite_path` over the set of existing paths.  The
returned pair is `(file_path, old_file_path)`; the filesystem component of
the result is the input filesystem (the function performs no writes; the
`make_folders_on_path` and `warn_if_already_exists` parameters are unused in
the source body). -/
def get_no_overwrite_path (fs : Finset String) (file_path_no_suffix suffix : String)
    ( make_folders_on_path : Bool) ( warn_if_already_exists : Bool) :
    (String × String) × Finset String :=
  if file_path_no_suffix ++ suffix ∈ fs then
    (((gnopLoop fs file_path_no_suffix suffix (fs.card + 1) 1).get
        (gnopLoop_isSome fs file_path_no_suffix suffix),
      file_path_no_suffix ++ suffix), fs)
  else ((file_path_no_suffix ++ suffix, file_path_no_suffix ++ suffix), fs)

theorem gnop_fresh (fs : Finset String) (b s : String) (m w : Bool) :
    (get_no_overwrite_path fs b s m w).1.1 ∉ fs := by
  unfold get_no_overwrite_path
  by_cases h : b ++ s ∈ fs
  · simp only [h, if_true]
    have hs := gnopLoop_isSome fs b s
    obtain ⟨p, hp⟩ := Option.isSome_iff_exists.mp hs
    obtain ⟨h', hget⟩ := Option.eq_some_iff_get_eq.mp hp
    have hfree := (gnopLoop_sound fs b s (fs.card + 1) 1 p hp).1
    rw [hget]
    exact hfree
  · simpa [h] using h

theorem gnop_base_mem (fs : Finset String) (b s : String) (m w : Bool) :
    b ++ s ∈ insert (get_no_overwrite_path fs b s m w).1.1 fs := by
  unfold get_no_overwrite_path
  by_cases h : b ++ s ∈ fs
  · simp [h]
  · simp [h]

theorem gnop_suffixed (fs : Finset String) (b s : String) (m w : Bool)
    (h : b ++ s ∈ fs) :
    ∃ k, 1 ≤ k ∧ (get_no_overwrite_path fs b s m w).1.1 = sufName b k s := by
  unfold get_no_overwrite_path
  simp only [h, if_true]
  have hs := gnopLoop_isSome fs b s
  obtain ⟨p, hp⟩ := Option.isSome_iff_exists.mp hs
  obtain ⟨h', hget⟩ := Option.eq_some_iff_get_eq.mp hp
  obtain ⟨_, j, hj, hpj⟩ := gnopLoop_sound fs b s (fs.card + 1) 1 p hp
  refine ⟨j, hj, ?_⟩
  rw [hget, hpj]

theorem gnop_old (fs : Finset String) (b s : String) (m w : Bool) :
    (get_no_overwrite_path fs b s m w).1.2 = b ++ s := by
  unfold get_no_overwrite_path
  by_cases h : b ++ s ∈ fs <;> simp [h]

theorem gnop_fs (fs : Finset String) (b s : String) (m w : Bool) :
    (get_no_overwrite_path fs b s m w).2 = fs := by
  unfold get_no_overwrite_path
  by_cases h : b ++ s ∈ fs <;> simp [h]

theorem gnop_flags (fs : Finset String) (b s : String) (m w m' w' : Bool) :
    get_no_overwrite_path fs b s m w = get_no_overwrite_path fs b s m' w' := rfl

/-! ## `novel_start_of_folder` (PathAllocator, `helpers_storage.py` 16–37)

```python
def novel_start_of_folder(path_to_parent_folder, semantic_id=""):
    prefix = "" # will be k*"#" if overflow
    counter=999
    folder_path = Path(path_to_parent_folder) / f"{prefix}{counter}_{semantic_id}"
    while osp.exists(folder_path):
        counter -= 1
        folder_path = Path(path_to_parent_folder) / f"{prefix}{counter}_{semantic_id}"
        if counter <= 100:
            prefix += "#"
            counter = 999
    os.makedirs(folder_path, exist_ok=True)
    return Path(folder_path)
```

The parent directory is modelled as the `Finset String` of existing folder
names inside it; the overflow string of `p` hash marks is `replicate p '#'`. -/

/-- The probed folder name `f"{prefix}{counter}_{semantic_id}"` with `p`
hash marks of overflow and counter `c`. -/
def mkName (p c : Nat) (id : String) : String :=
  ⟨List.replicate p '#' ++ decRepr c ++ '_' :: id.data⟩

/-- The allocation `while` loop.  Arguments: fuel, current `folder_path`,
current hash-mark count and current counter.  `none` models running out of
fuel, ruled out at fuel `card + 1` by `nsLoop_isSome`. -/
def nsLoop (S : Finset String) (id : String) : Nat → String → Nat → Nat → Option String
  | 0, _, _, _ => none
  | f + 1, name, p, c =>
      if name ∈ S then
        let c' := c - 1
        let name' := mkName p c' id
        if c' ≤ 100 then nsLoop S id f name' (p + 1) 999
        else nsLoop S id f name' p c'
      else some name

/-- Embedding of `novel_start_of_folder`: run the probe loop from `999_{id}` and create
the resulting folder (`insert` into the set of existing names). -/
def novel_start_of_folder (S : Finset String) (semantic_id : String) :
    Option (String × Finset String) :=
  (nsLoop S semantic_id (S.card + 1) (mkName 0 999 semantic_id) 0 999).map
    (fun nm => (nm, insert nm S))

/-- The `(hash count, counter)` pair of the k-th name probed by the loop. -/
def probePair : Nat → Nat × Nat
  | 0 => (0, 999)
  | k + 1 =>
      let pc := probePair k
      if 100 < pc.2 then (pc.1, pc.2 - 1) else (pc.1 + 1, 998)

/-- The k-th name probed by the loop. -/
def probeName (id : String) (k : Nat) : String := mkName (probePair k).1 (probePair k).2 id

/-- The internal `(prefix, counter)` variables right after the k-th name was
built: they differ from the probed pair exactly at a band boundary, where the
counter has just been reset to 999. -/
def loopVars (k : Nat) : Nat × Nat :=
  let pc := probePair k
  if pc.2 = 100 then (pc.1 + 1, 999) else pc

theorem probePair_bounds (k : Nat) :
    100 ≤ (probePair k).2 ∧ (probePair k).2 ≤ 999 ∧
      ((probePair k).1 = 0 ∨ (probePair k).2 ≤ 998) := by
  induction k with
  | zero => simp [probePair]
  | succ k ih =>
      simp only [probePair]
      by_cases h : 100 < (probePair k).2 <;> simp [h] <;> omega

/-- Position of a probed pair in the overall probe order: band `0` holds the
900 counters `999..100`, each later band holds the 899 counters `998..100`. -/
def probeRank (pc : Nat × Nat) : Nat :=
  if pc.1 = 0 then 999 - pc.2 else 900 + (pc.1 - 1) * 899 + (998 - pc.2)

theorem probeRank_probePair (k : Nat) : probeRank (probePair k) = k := by
  induction k with
  | zero => simp [probePair, probeRank]
  | succ k ih =>
      have hb := probePair_bounds k
      simp only [probePair]
      by_cases h : 100 < (probePair k).2
      · simp only [h, if_true]
        simp only [probeRank] at ih ⊢
        by_cases hp : (probePair k).1 = 0 <;> simp [hp] at ih ⊢ <;> omega
      · simp only [h, if_false]
        have hc : (probePair k).2 = 100 := by omega
        simp only [probeRank] at ih ⊢
        by_cases hp : (probePair k).1 = 0
        · simp [hp, hc] at ih ⊢; omega
        · simp [hp, hc] at ih ⊢
          have : (probePair k).1 - 1 + 1 = (probePair k).1 := by omega
          omega

theorem mkName_inj (id : String) (p₁ c₁ p₂ c₂ : Nat)
    (hc₁ : 1 ≤ c₁) (hc₂ : 1 ≤ c₂)
    (h : mkName p₁ c₁ id = mkName p₂ c₂ id) : p₁ = p₂ ∧ c₁ = c₂ := by
  have hdata : List.replicate p₁ '#' ++ decRepr c₁ ++ '_' :: id.data =
      List.replicate p₂ '#' ++ decRepr c₂ ++ '_' :: id.data := congrArg String.data h
  obtain ⟨d₁, t₁, hd₁⟩ : ∃ d t, decRepr c₁ = d :: t := by
    cases hh : decRepr c₁ with
    | nil => exact absurd hh (decRepr_ne_nil c₁ hc₁)
    | cons d t => exact ⟨d, t, rfl⟩
  obtain ⟨d₂, t₂, hd₂⟩ : ∃ d t, decRepr c₂ = d :: t := by
    cases hh : decRepr c₂ with
    | nil => exact absurd hh (decRepr_ne_nil c₂ hc₂)
    | cons d t => exact ⟨d, t, rfl⟩
  have hne₁ : d₁ ≠ '#' := by
    obtain ⟨dd, hdd, rfl⟩ := decRepr_mem c₁ d₁ (hd₁ ▸ List.mem_cons_self _ _)
    exact digitChar_lt10_ne_hash dd hdd
  have hne₂ : d₂ ≠ '#' := by
    obtain ⟨dd, hdd, rfl⟩ := decRepr_mem c₂ d₂ (hd₂ ▸ List.mem_cons_self _ _)
    exact digitChar_lt10_ne_hash dd hdd
  rw [hd₁, hd₂] at hdata
  simp only [List.cons_append, List.append_assoc] at hdata
  have hsplit : ∀ q₁ q₂ (e₁ e₂ : Char) (l₁ l₂ : List Char), e₁ ≠ '#' → e₂ ≠ '#' →
      List.replicate q₁ '#' ++ e₁ :: l₁ = List.replicate q₂ '#' ++ e₂ :: l₂ →
      q₁ = q₂ ∧ e₁ = e₂ ∧ l₁ = l₂ := by
    intro q₁
    induction q₁ with
    | zero =>
        intro q₂ e₁ e₂ l₁ l₂ he₁ he₂ hh
        cases q₂ with
        | zero => simpa using hh
        | succ q =>
            exfalso
            simp only [List.replicate, List.nil_append, List.cons_append, List.cons.injEq]
              at hh
            exact he₁ hh.1
    | succ q ih =>
        intro q₂ e₁ e₂ l₁ l₂ he₁ he₂ hh
        cases q₂ with
        | zero =>
            exfalso
            simp only [List.replicate, List.nil_append, List.cons_append, List.cons.injEq]
              at hh
            exact he₂ hh.1.symm
        | succ q' =>
            simp only [List.replicate, List.cons_append, List.cons.injEq] at hh
            obtain ⟨h₁, h₂, h₃⟩ := ih q' e₁ e₂ l₁ l₂ he₁ he₂ hh.2
            exact ⟨by omega, h₂, h₃⟩
  obtain ⟨hp, hd, ht⟩ := hsplit p₁ p₂ d₁ d₂ (t₁ ++ '_' :: id.data) (t₂ ++ '_' :: id.data)
    hne₁ hne₂ hdata
  refine ⟨hp, ?_⟩
  have ht' : t₁ = t₂ := app_cancel_right _ _ _ ht
  have hdd : decRepr c₁ = decRepr c₂ := by rw [hd₁, hd₂, hd, ht']
  exact decRepr_inj _ _ hdd

theorem probeName_inj (id : String) (i j : Nat) (h : probeName id i = probeName id j) :
    i = j := by
  have hi := probePair_bounds i
  have hj := probePair_bounds j
  obtain ⟨hp, hc⟩ := mkName_inj id _ _ _ _ (by omega) (by omega) h
  have : probePair i = probePair j := Prod.ext hp hc
  have := congrArg probeRank this
  rwa [probeRank_probePair, probeRank_probePair] at this

theorem nsLoop_sound (S : Finset String) (id : String) :
    ∀ f nm p c r, nsLoop S id f nm p c = some r → r ∉ S := by
  intro f
  induction f with
  | zero => intro nm p c r h; simp [nsLoop] at h
  | succ f ih =>
      intro nm p c r h
      by_cases hm : nm ∈ S
      · simp only [nsLoop, hm, if_true] at h
        by_cases hc : c - 1 ≤ 100
        · simp only [hc, if_true] at h; exact ih _ _ _ _ h
        · simp only [hc, if_false] at h; exact ih _ _ _ _ h
      · simp only [nsLoop, hm, if_false] at h
        have := Option.some.inj h
        subst this
        exact hm

/-- One unrolling of the loop, expressed on the probe sequence: if the k-th
probed name is taken, the loop state advances to the (k+1)-th probe. -/
theorem nsLoop_step (S : Finset String) (id : String) (f k : Nat)
    (hm : probeName id k ∈ S) :
    nsLoop S id (f + 1) (probeName id k) (loopVars k).1 (loopVars k).2 =
      nsLoop S id f (probeName id (k + 1)) (loopVars (k + 1)).1 (loopVars (k + 1)).2 := by
  have hb := probePair_bounds k
  simp only [nsLoop, hm, if_true]
  by_cases h100 : (probePair k).2 = 100
  · -- the previous probe was `{prefix}100_`: counter was reset to 999
    have hlv : loopVars k = ((probePair k).1 + 1, 999) := by simp [loopVars, h100]
    have hpp : probePair (k + 1) = ((probePair k).1 + 1, 998) := by
      simp [probePair, h100]
    have hlv' : loopVars (k + 1) = ((probePair k).1 + 1, 998) := by
      simp [loopVars, hpp]
    simp [hlv, hlv', probeName, hpp]
  · by_cases h101 : (probePair k).2 = 101
    · -- counter moves from 101 to 100 and triggers the reset
      have hlv : loopVars k = probePair k := by simp [loopVars, h100]
      have hpp : probePair (k + 1) = ((probePair k).1, 100) := by
        simp [probePair, h101]
      have hlv' : loopVars (k + 1) = ((probePair k).1 + 1, 999) := by
        simp [loopVars, hpp]
      simp [hlv, hlv', probeName, hpp, h101]
    · -- plain decrement, counter stays above 100
      have hgt2 : 100 < (probePair k).2 := by omega
      have hlv : loopVars k = probePair k := by simp [loopVars, h100]
      have hpp : probePair (k + 1) = ((probePair k).1, (probePair k).2 - 1) := by
        simp [probePair, hgt2]
      have hlv' : loopVars (k + 1) = ((probePair k).1, (probePair k).2 - 1) := by
        simp only [loopVars, hpp]
        have hne : ¬((probePair k).2 - 1 = 100) := by omega
        simp [hne]
      have hcond : ¬((probePair k).2 - 1 ≤ 100) := by omega
      simp [hlv, hlv', probeName, hpp, hcond]

theorem nsLoop_run (S : Finset String) (id : String) :
    ∀ f k, (∃ j, j < f ∧ probeName id (k + j) ∉ S) →
      ∃ r, nsLoop S id f (probeName id k) (loopVars k).1 (loopVars k).2 = some r := by
  intro f
  induction f with
  | zero => intro k h; obtain ⟨j, hj, _⟩ := h; omega
  | succ f ih =>
      intro k h
      by_cases hm : probeName id k ∈ S
      · obtain ⟨j, hj, hfree⟩ := h
        have hj0 : j ≠ 0 := by
          rintro rfl
          exact hfree (by simpa using hm)
        rw [nsLoop_step S id f k hm]
        obtain ⟨r, hr⟩ := ih (k + 1) ⟨j - 1, by omega, by
          have : k + 1 + (j - 1) = k + j := by omega
          rw [this]; exact hfree⟩
        exact ⟨r, hr⟩
      · exact ⟨probeName id k, by simp [nsLoop, hm]⟩

theorem novel_start_of_folder_some (S : Finset String) (id : String) :
    ∃ nm, novel_start_of_folder S id = some (nm, insert nm S) ∧ nm ∉ S := by
  obtain ⟨j, hj, hfree⟩ := probe_free_exists S (probeName id) (probeName_inj id)
  have h0 : probeName id 0 = mkName 0 999 id := by simp [probeName, probePair]
  have hlv0 : loopVars 0 = (0, 999) := by simp [loopVars, probePair]
  obtain ⟨r, hr⟩ := nsLoop_run S id (S.card + 1) 0 ⟨j, by omega, by simpa using hfree⟩
  rw [h0, hlv0] at hr
  refine ⟨r, ?_, nsLoop_sound S id _ _ _ _ r hr⟩
  simp [novel_start_of_folder, hr]

/-- A sequence of `N` successive allocations with the same parent and label, starting from
an empty parent: returns the ordered list of allocated names and the final
set of existing folders. -/
def allocSeq (semantic_id : String) : Nat → Option (List String × Finset String)
  | 0 => some ([], ∅)
  | n + 1 =>
      (allocSeq semantic_id n).bind fun ls =>
        (novel_start_of_folder ls.2 semantic_id).map fun ns => (ls.1 ++ [ns.1], ns.2)

/-! ## `novel_folder_anum` (random base-62 PathAllocator, `helpers_storage.py` 175–207)

```python
_ALPHANUM_CHARS = string.digits + string.ascii_uppercase + string.ascii_lowercase

def _to_base62(num, length):
    base = len(_ALPHANUM_CHARS)
    chars = []
    for _ in range(length):
        num, rem = divmod(num, base)
        chars.append(_ALPHANUM_CHARS[rem])
    return ''.join(reversed(chars))

def novel_folder_anum(path_to_parent_folder, digit_num=10):
    max_num = len(_ALPHANUM_CHARS) ** digit_num
    n = random.randrange(max_num)
    while True:
        name = _to_base62(n, digit_num)
        if not osp.exists(path_to_parent_folder / name):
            os.makedirs(...); return ...
        n = (n + 1) % max_num
```

The random draw is modelled as an explicit starting integer `n₀ < 62^digit_num`;
the unbounded `while True` is modelled with fuel `62^digit_num`, the number of
slots in the namespace (running out of fuel means every slot was probed and
taken, i.e. the Python loop would spin forever). -/

/-- The base-62 digit alphabet: digits, then uppercase, then lowercase. -/
def alphanumChars : List Char :=
  "0123456789ABCDEFGHIJKLMNOPQRSTUVWXYZabcdefghijklmnopqrstuvwxyz".data

def alphanumChar (n : Nat) : Char := alphanumChars.getD n ' '

/-- Digits of `num` in base 62, least-significant first, `len` of them
(the loop body of `_to_base62` before the final `reversed`). -/
def toBase62Digits : Nat → Nat → List Char
  | _, 0 => []
  | num, l + 1 => alphanumChar (num % 62) :: toBase62Digits (num / 62) l

/-- Embedding of `_to_base62`: fixed-width base-62 rendering, most-significant digit
first. -/
def to_base62 (num length : Nat) : String := ⟨(toBase62Digits num length).reverse⟩

theorem alphanumChar_inj_fin : ∀ a b : Fin 62, alphanumChar a = alphanumChar b → a = b := by
  decide

theorem alphanumChar_inj (a b : Nat) (ha : a < 62) (hb : b < 62)
    (h : alphanumChar a = alphanumChar b) : a = b := by
  have := alphanumChar_inj_fin ⟨a, ha⟩ ⟨b, hb⟩ h
  exact congrArg Fin.val this

theorem toBase62Digits_inj : ∀ l a b : Nat, a < 62 ^ l → b < 62 ^ l →
    toBase62Digits a l = toBase62Digits b l → a = b := by
  intro l
  induction l with
  | zero => intro a b ha hb _; simp [pow_zero] at ha hb; omega
  | succ l ih =>
      intro a b ha hb h
      simp only [toBase62Digits, List.cons.injEq] at h
      have hd : a % 62 = b % 62 :=
        alphanumChar_inj _ _ (Nat.mod_lt _ (by omega)) (Nat.mod_lt _ (by omega)) h.1
      have ht : a / 62 = b / 62 := by
        refine ih _ _ ?_ ?_ h.2
        · exact Nat.div_lt_of_lt_mul (by rw [pow_succ] at ha; omega)
        · exact Nat.div_lt_of_lt_mul (by rw [pow_succ] at hb; omega)
      omega

theorem to_base62_inj (l a b : Nat) (ha : a < 62 ^ l) (hb : b < 62 ^ l)
    (h : to_base62 a l = to_base62 b l) : a = b := by
  have := congrArg String.data h
  simp only [to_base62] at this
  have := congrArg List.reverse this
  simp only [List.reverse_reverse] at this
  exact toBase62Digits_inj l a b ha hb this

/-- The collision-retry loop of `novel_folder_anum`, fuel-bounded. -/
def anumLoop (S : Finset String) (digit_num : Nat) : Nat → Nat → Option String
  | 0, _ => none
  | f + 1, n =>
      let name := to_base62 n digit_num
      if name ∈ S then anumLoop S digit_num f ((n + 1) % 62 ^ digit_num)
      else some name

/-- Embedding of `novel_folder_anum` with an explicit random starting integer `n₀`. -/
def novel_folder_anum (S : Finset String) (n₀ : Nat) (digit_num : Nat) :
    Option (String × Finset String) :=
  (anumLoop S digit_num (62 ^ digit_num) n₀).map (fun nm => (nm, insert nm S))

theorem anumLoop_sound (S : Finset String) (dn : Nat) :
    ∀ f n r, n < 62 ^ dn → anumLoop S dn f n = some r →
      r ∉ S ∧ ∃ m, m < 62 ^ dn ∧ r = to_base62 m dn := by
  intro f
  induction f with
  | zero => intro n r _ h; simp [anumLoop] at h
  | succ f ih =>
      intro n r hn h
      by_cases hm : to_base62 n dn ∈ S
      · simp only [anumLoop, hm, if_true] at h
        exact ih _ r (Nat.mod_lt _ (Nat.pos_of_ne_zero (by positivity))) h
      · simp only [anumLoop, hm, if_false] at h
        have := Option.some.inj h
        subst this
        exact ⟨hm, n, hn, rfl⟩

/-- If within `f` further probes one is free, the loop (with `digit_num = 2`)
succeeds.  Probes walk `n, n+1, …` modulo `3844 = 62²`. -/
theorem anumLoop_run2 (S : Finset String) :
    ∀ f n, n < 3844 → (∃ j, j < f ∧ to_base62 ((n + j) % 3844) 2 ∉ S) →
      ∃ r, anumLoop S 2 f n = some r := by
  intro f
  induction f with
  | zero => intro n _ h; obtain ⟨j, hj, _⟩ := h; omega
  | succ f ih =>
      intro n hn h
      by_cases hm : to_base62 n 2 ∈ S
      · obtain ⟨j, hj, hfree⟩ := h
        have hj0 : j ≠ 0 := by
          rintro rfl
          rw [Nat.add_zero, Nat.mod_eq_of_lt hn] at hfree
          exact hfree hm
        have h62 : (62 : Nat) ^ 2 = 3844 := by norm_num
        obtain ⟨r, hr⟩ := ih ((n + 1) % 3844) (Nat.mod_lt _ (by omega))
          ⟨j - 1, by omega, by
            have heq : ((n + 1) % 3844 + (j - 1)) % 3844 = (n + j) % 3844 := by omega
            rw [heq]; exact hfree⟩
        refine ⟨r, ?_⟩
        simp only [anumLoop, hm, if_true, h62]
        exact hr
      · exact ⟨to_base62 n 2, by simp [anumLoop, hm]⟩

/-! ## `make_non_duplicate_backups` (BackupDeduplicator, `helpers_storage.py` 101–142)

```python
def make_non_duplicate_backups(paths_of_files_to_back_up, path_to_backup_folder):
    did_backup = []
    for path in paths_of_files_to_back_up:
        if not osp.exists(path):
            did_backup.append(None); continue
        file_name = osp.basename(path)
        backup_path = osp.join(path_to_backup_folder, file_name)
        if osp.exists(backup_path):
            did_backup.append(False); continue
        os.makedirs(osp.dirname(backup_path), exist_ok=True)
        sh.copy2(path, backup_path)
        did_backup.append(True)
    return did_backup
```

Paths are modelled as component lists (`osp.basename` takes the last
component, `osp.join` appends one, `osp.dirname` of the joined path is the
backup folder); the filesystem is the `Finset (List String)` of existing
entries, an existence-level model: it records which paths exist but not
whether each is a file or a directory, so type errors of the real code
(`sh.copy2` of a directory source raising `IsADirectoryError`, `os.makedirs`
through an existing file raising) are outside the model — the C6 theorem's
hypotheses keep its statement inside the region where existence alone
decides the behaviour.  `os.makedirs(osp.dirname(backup_path),
exist_ok=True)` creates the backup folder AND every ancestor directory of
it, i.e. every non-empty prefix of its component list (the degenerate empty
backup-folder path, on which the real `os.makedirs("")` raises
`FileNotFoundError` at the first copy, is not modelled; the C6 theorem
excludes it by hypothesis).  Outcomes: `some true` = COPIED, `some false` =
ALREADY_PRESENT, `none` = MISSING. -/

/-- Embedding of `osp.basename` on a component-list path. -/
def pathBase (p : List String) : String := p.getLastD ""

/-- The directories `os.makedirs(path, exist_ok=True)` creates: every
non-empty prefix of the path, the path itself included. -/
def ancestorDirs (bdir : List String) : List (List String) :=
  (List.range bdir.length).map (fun i => bdir.take (i + 1))

theorem ancestorDirs_length_le (bdir : List String) :
    ∀ a ∈ ancestorDirs bdir, a.length ≤ bdir.length := by
  intro a ha
  obtain ⟨i, hi, rfl⟩ := List.mem_map.mp ha
  rw [List.length_take]
  omega

/-- Embedding of `make_non_duplicate_backups` over an explicit filesystem; returns the
ordered outcome list and the filesystem after the copies. -/
def make_non_duplicate_backups (paths : List (List String)) (bdir : List String)
    (fs : Finset (List String)) : List (Option Bool) × Finset (List String) :=
  match paths with
  | [] => ([], fs)
  | p :: rest =>
      if p ∈ fs then
        if bdir ++ [pathBase p] ∈ fs then
          let r := make_non_duplicate_backups rest bdir fs
          (some false :: r.1, r.2)
        else
          -- os.makedirs(dirname) creates the backup folder with all its
          -- ancestors, copy2 then creates the file
          let fs₁ := insert (bdir ++ [pathBase p]) (fs ∪ (ancestorDirs bdir).toFinset)
          let r := make_non_duplicate_backups rest bdir fs₁
          (some true :: r.1, r.2)
      else
        let r := make_non_duplicate_backups rest bdir fs
        (none :: r.1, r.2)

theorem mnb_length (paths : List (List String)) (bdir : List String)
    (fs : Finset (List String)) :
    (make_non_duplicate_backups paths bdir fs).1.length = paths.length := by
  induction paths generalizing fs with
  | nil => simp [make_non_duplicate_backups]
  | cons p rest ih =>
      by_cases hp : p ∈ fs
      · by_cases hb : bdir ++ [pathBase p] ∈ fs <;>
          simp [make_non_duplicate_backups, hp, hb, ih]
      · simp [make_non_duplicate_backups, hp, ih]

/-- A second pass over sources whose backups are all already present is a
no-op: every existing source reports ALREADY_PRESENT, every missing one
MISSING, and the filesystem does not change. -/
theorem mnb_noop (paths : List (List String)) (bdir : List String)
    (fs : Finset (List String))
    (h : ∀ p ∈ paths, p ∈ fs → bdir ++ [pathBase p] ∈ fs) :
    make_non_duplicate_backups paths bdir fs =
      (paths.map (fun p => if p ∈ fs then some false else none), fs) := by
  induction paths with
  | nil => simp [make_non_duplicate_backups]
  | cons p rest ih =>
      have hrest : ∀ q ∈ rest, q ∈ fs → bdir ++ [pathBase q] ∈ fs :=
        fun q hq => h q (List.mem_cons_of_mem _ hq)
      by_cases hp : p ∈ fs
      · have hb := h p (List.mem_cons_self _ _) hp
        simp [make_non_duplicate_backups, hp, hb, ih hrest]
      · simp [make_non_duplicate_backups, hp, ih hrest]

/-- The first pass over a fresh backup directory, for sources with
pairwise-distinct basenames among the existing ones and no source
coinciding with an ancestor of the backup folder: every existing source
is COPIED, every missing one MISSING; the filesystem afterwards contains the
old entries, possibly the backup folder with its ancestors, and the copied
backups, and every existing source's backup is present. -/
theorem mnb_first (allPaths : List (List String)) (bdir : List String) :
    ∀ (paths : List (List String)) (fs : Finset (List String)),
    (∀ x ∈ paths, x ∈ allPaths) →
    (∀ p ∈ paths, p ∉ ancestorDirs bdir) →
    (∀ p ∈ paths, p ∈ fs → bdir ++ [pathBase p] ∉ fs) →
    ((paths.filter (· ∈ fs)).map pathBase).Nodup →
    (∀ p ∈ paths, p ∉ fs → ∀ q ∈ allPaths, p ≠ bdir ++ [pathBase q]) →
    (make_non_duplicate_backups paths bdir fs).1 =
        paths.map (fun p => if p ∈ fs then some true else none) ∧
      (∀ x ∈ fs, x ∈ (make_non_duplicate_backups paths bdir fs).2) ∧
      (∀ p ∈ paths, p ∈ fs →
        bdir ++ [pathBase p] ∈ (make_non_duplicate_backups paths bdir fs).2) ∧
      (∀ x ∈ (make_non_duplicate_backups paths bdir fs).2,
        x ∈ fs ∨ x ∈ ancestorDirs bdir ∨
          ∃ p ∈ paths, p ∈ fs ∧ x = bdir ++ [pathBase p]) := by
  intro paths
  induction paths with
  | nil =>
      intro fs _ _ _ _ _
      refine ⟨rfl, fun x hx => hx, by simp, fun x hx => Or.inl hx⟩
  | cons p rest ih =>
      intro fs hsub h0 h1 h2 h3
      have hsub' : ∀ x ∈ rest, x ∈ allPaths := fun x hx => hsub x (List.mem_cons_of_mem _ hx)
      have h0' : ∀ x ∈ rest, x ∉ ancestorDirs bdir :=
        fun x hx => h0 x (List.mem_cons_of_mem _ hx)
      by_cases hp : p ∈ fs
      · -- the head exists: it gets copied (its backup target is free by h1)
        have hb : bdir ++ [pathBase p] ∉ fs := h1 p (List.mem_cons_self _ _) hp
        -- the filesystem gains the backup folder with its ancestors and the
        -- copied file
        set fs₁ : Finset (List String) :=
          insert (bdir ++ [pathBase p]) (fs ∪ (ancestorDirs bdir).toFinset) with hfs₁
        have hmemfs₁ : ∀ q ∈ rest, (q ∈ fs₁ ↔ q ∈ fs) := by
          intro q hq
          constructor
          · intro hqm
            rcases Finset.mem_insert.mp hqm with hq1 | hq1
            · by_contra hqf
              exact h3 q (List.mem_cons_of_mem _ hq) hqf p
                (hsub p (List.mem_cons_self _ _)) hq1
            · rcases Finset.mem_union.mp hq1 with hq2 | hq2
              · exact hq2
              · exact absurd (List.mem_toFinset.mp hq2) (h0 q (List.mem_cons_of_mem _ hq))
          · intro hqf
            exact Finset.mem_insert_of_mem (Finset.mem_union_left _ hqf)
        have hfilter : rest.filter (· ∈ fs₁) = rest.filter (· ∈ fs) := by
          apply List.filter_congr
          intro q hq
          simpa using hmemfs₁ q hq
        have h3' : ((p :: rest).filter (· ∈ fs)).map pathBase =
            pathBase p :: ((rest.filter (· ∈ fs)).map pathBase) := by
          simp [List.filter_cons, hp]
        rw [h3'] at h2
        have hnd := List.nodup_cons.mp h2
        have h1' : ∀ q ∈ rest, q ∈ fs₁ → bdir ++ [pathBase q] ∉ fs₁ := by
          intro q hq hqm
          have hqf : q ∈ fs := (hmemfs₁ q hq).mp hqm
          have htq : bdir ++ [pathBase q] ∉ fs := h1 q (List.mem_cons_of_mem _ hq) hqf
          intro hcon
          rcases Finset.mem_insert.mp hcon with hc | hc
          · -- equal backup targets force equal basenames, contradicting Nodup
            have : pathBase q = pathBase p := by
              have := app_cancel_left bdir [pathBase q] [pathBase p] hc
              simpa using this
            exact hnd.1 (this ▸ List.mem_map.mpr ⟨q, List.mem_filter.mpr
              ⟨hq, by simpa using hqf⟩, rfl⟩)
          · rcases Finset.mem_union.mp hc with hc2 | hc2
            · exact htq hc2
            · -- a backup target is strictly longer than any ancestor of the
              -- backup folder
              have hlen := ancestorDirs_length_le bdir _ (List.mem_toFinset.mp hc2)
              rw [List.length_append] at hlen
              simp at hlen
        have h2' : ((rest.filter (· ∈ fs₁)).map pathBase).Nodup := by
          rw [hfilter]; exact hnd.2
        have h3'' : ∀ q ∈ rest, q ∉ fs₁ →
            ∀ t ∈ allPaths, q ≠ bdir ++ [pathBase t] := by
          intro q hq hqm
          have hqf : q ∉ fs := fun hc => hqm ((hmemfs₁ q hq).mpr hc)
          exact h3 q (List.mem_cons_of_mem _ hq) hqf
        obtain ⟨ihl, ihmono, ihtgt, ihub⟩ := ih fs₁ hsub' h0' h1' h2' h3''
        have hres : make_non_duplicate_backups (p :: rest) bdir fs =
            (some true :: (make_non_duplicate_backups rest bdir fs₁).1,
             (make_non_duplicate_backups rest bdir fs₁).2) := by
          simp [make_non_duplicate_backups, hp, hb, hfs₁]
        refine ⟨?_, ?_, ?_, ?_⟩
        · rw [hres]
          simp only [List.map_cons, hp, if_true, List.cons.injEq, true_and]
          rw [ihl]
          apply List.map_congr_left
          intro q hq
          by_cases hqf : q ∈ fs
          · simp [hqf, (hmemfs₁ q hq).mpr hqf]
          · have hq1 : q ∉ fs₁ := fun hc => hqf ((hmemfs₁ q hq).mp hc)
            simp [hqf, hq1]
        · intro x hx
          rw [hres]
          exact ihmono x (Finset.mem_insert_of_mem (Finset.mem_union_left _ hx))
        · intro q hq hqf
          rw [hres]
          rcases List.mem_cons.mp hq with rfl | hq'
          · exact ihmono _ (Finset.mem_insert_self _ _)
          · exact ihtgt q hq' ((hmemfs₁ q hq').mpr hqf)
        · intro x hx
          rw [hres] at hx
          rcases ihub x hx with hx1 | hx1 | ⟨q, hq, hqm, hqe⟩
          · rcases Finset.mem_insert.mp hx1 with hc | hc
            · exact Or.inr (Or.inr ⟨p, List.mem_cons_self _ _, hp, hc⟩)
            · rcases Finset.mem_union.mp hc with hc2 | hc2
              · exact Or.inl hc2
              · exact Or.inr (Or.inl (List.mem_toFinset.mp hc2))
          · exact Or.inr (Or.inl hx1)
          · exact Or.inr (Or.inr ⟨q, List.mem_cons_of_mem _ hq,
              (hmemfs₁ q hq).mp hqm, hqe⟩)
      · -- the head is missing: MISSING outcome, state unchanged for it
        have h1' : ∀ q ∈ rest, q ∈ fs → bdir ++ [pathBase q] ∉ fs :=
          fun q hq => h1 q (List.mem_cons_of_mem _ hq)
        have h2' : ((rest.filter (· ∈ fs)).map pathBase).Nodup := by
          have : (p :: rest).filter (· ∈ fs) = rest.filter (· ∈ fs) := by
            simp [List.filter_cons, hp]
          rwa [this] at h2
        have h3'' : ∀ q ∈ rest, q ∉ fs →
            ∀ t ∈ allPaths, q ≠ bdir ++ [pathBase t] :=
          fun q hq => h3 q (List.mem_cons_of_mem _ hq)
        obtain ⟨ihl, ihmono, ihtgt, ihub⟩ := ih fs hsub' h0' h1' h2' h3''
        have hres : make_non_duplicate_backups (p :: rest) bdir fs =
            (none :: (make_non_duplicate_backups rest bdir fs).1,
             (make_non_duplicate_backups rest bdir fs).2) := by
          simp [make_non_duplicate_backups, hp]
        refine ⟨?_, ?_, ?_, ?_⟩
        · rw [hres]
          simp only [List.map_cons, hp, if_false, List.cons.injEq, true_and]
          exact ihl
        · intro x hx; rw [hres]; exact ihmono x hx
        · intro q hq hqf
          rw [hres]
          rcases List.mem_cons.mp hq with rfl | hq'
          · exact absurd hqf hp
          · exact ihtgt q hq' hqf
        · intro x hx
          rw [hres] at hx
          rcases ihub x hx with hx1 | hx1 | ⟨q, hq, hqm, hqe⟩
          · exact Or.inl hx1
          · exact Or.inr (Or.inl hx1)
          · exact Or.inr (Or.inr ⟨q, List.mem_cons_of_mem _ hq, hqm, hqe⟩)

/-! ## The `MLStorage` checkpoint store (`shared_storage3.py`)

State is modelled per the class fields after `initial_setup`: the fixed
document paths, the set of existing filesystem paths (`disk`), the contents
of pickled object files (`pickledFiles`), and the four in-memory documents.
Timestamps (`datetime.now().isoformat()`) are modelled by the state's
`clock` value. -/

/-- Embedding of `Path(p).name`: the part of `p` after the last `/`. -/
def takeBasename (p : String) : String :=
  ⟨(p.data.reverse.takeWhile (fun c => c ≠ '/')).reverse⟩

/-- An opaque Python object handed to `save_checkpoint`: whether it exposes a
`prepare_for_save` hook, whether that hook has marked it ready, an opaque
payload identity, and the byte size of its pickle (`os.path.getsize`). -/
structure PyObj where
  hasHook : Bool
  prepared : Bool
  payload : Nat
  nbytes : Nat
deriving DecidableEq

/-- The call-site pattern `if hasattr(obj, 'prepare_for_save'):
obj.prepare_for_save()` (the demo hook sets `is_ready_for_save = True`). -/
def prepObj (o : PyObj) : PyObj :=
  if o.hasHook then { o with prepared := true } else o

/-- The `ProjectPhase` enum. -/
inductive ProjectPhase where
  | setup
  | training
  | evaluation
  | ready
deriving DecidableEq

def ProjectPhase.value : ProjectPhase → String
  | .setup => "setup"
  | .training => "training"
  | .evaluation => "evaluation"
  | .ready => "ready"

/-- One checkpoint record of `tiny_db.json`: `{'name', 'phase', 'saved_at',
'files'}` with `files` mapping each role to the on-disk file name actually
used. -/
structure CheckpointInfo where
  name : String
  phase : String
  saved_at : Nat
  files : List (String × String)
deriving DecidableEq

/-- The `shared_storage.yaml` document (the keys the code reads/writes). -/
structure SharedStorage where
  project_name : String
  created_at : Nat
  current_phase : String
  latest_model_file : Option String
  latest_checkpoint : Option String
  total_checkpoints : Nat
  phase_changes : List (String × String × Nat)
deriving DecidableEq

/-- A node of `file_tree.yaml`: a leaf records `added_at`/`size_bytes`,
an inner node holds children keyed by path segment (Python stores both as
nested dicts; the embedding separates the two shapes). -/
inductive FTree where
  | leaf (added_at : Nat) (size_bytes : Nat)
  | node (children : List (String × FTree))

/-- The navigation loop of `_update_file_tree` below the `root` key:
`setdefault(part + "/", {})` down the folder parts, then assign the leaf at
the last part.  A leaf found where a folder dict is expected is replaced by
an empty dict (unreachable for the paths this code produces). -/
def ftAssign : List (String × FTree) → List String → FTree → List (String × FTree)
  | cs, [], _ => cs
  | cs, [last], lf => insertReplace cs last lf
  | cs, part :: rest, lf =>
      let key := part ++ "/"
      let sub := match alookup key cs with
        | some (FTree.node l) => l
        | _ => []
      insertReplace cs key (FTree.node (ftAssign sub rest lf))

/-- Embedding of `_update_file_tree(relative_path)`: insert a leaf for `relative_path`
(split into parts) under the `root` key of the file tree. -/
def update_file_tree (ft : List (String × FTree)) (parts : List String)
    (added size : Nat) : List (String × FTree) :=
  let rootCs := match alookup "root" ft with
    | some (FTree.node l) => l
    | _ => []
  insertReplace ft "root" (FTree.node (ftAssign rootCs parts (FTree.leaf added size)))

/-- The four structured documents, in the order `_save_all_state` writes
them. -/
inductive DocEvent where
  | mainYaml
  | sharedStorage
  | fileTree
  | tinyDb
deriving DecidableEq

/-- The `MLStorage` instance state after `initial_setup`. -/
structure MLState where
  project_path : String
  files_dir : String
  main_yaml_path : String
  shared_storage_path : String
  file_tree_path : String
  tiny_db_path : String
  old_yamls_dir : String
  /-- the set of existing filesystem paths -/
  disk : Finset String
  /-- contents of the pickled object files under `files_dir` -/
  pickledFiles : List (String × PyObj)
  main_config : List (String × String)
  shared_storage : SharedStorage
  file_tree : List (String × FTree)
  checkpoint_db : List (String × CheckpointInfo)
  current_phase : ProjectPhase
  clock : Nat

/-- Embedding of `_save_all_state`: write the four documents (in source order
`main.yaml`, `shared_storage.yaml`, `file_tree.yaml`, `tiny_db.json`).
Document contents live in the state's in-memory fields; the writes make the
four paths exist and are reported as an ordered event list. -/
def save_all_state (st : MLState) : MLState × List DocEvent :=
  ({ st with disk := insert st.tiny_db_path (insert st.file_tree_path
      (insert st.shared_storage_path (insert st.main_yaml_path st.disk))) },
   [DocEvent.mainYaml, DocEvent.sharedStorage, DocEvent.fileTree, DocEvent.tinyDb])

/-- Result of the per-object loop of `save_checkpoint`. -/
structure ObjLoopOut where
  disk : Finset String
  pickledFiles : List (String × PyObj)
  ftree : List (String × FTree)
  /-- the `(role, full on-disk path)` of each file written, in loop order -/
  written : List (String × String)
  /-- roles whose `prepare_for_save` hook ran, in loop order -/
  hooks : List String

/-- The `for obj_name, obj in objects_to_save.items()` loop of
`save_checkpoint`: skip `None` objects, run the finalize hook when present,
resolve `files_dir/{name}_{role}` + `.pkl` through the collision resolver
(`str(filepath.with_suffix(''))` undoes the appended `.pkl`), pickle the
object to the resolved path and record the leaf in the file tree (the path
relative to the project is `files/{basename}`). -/
def saveObjectsLoop (fd name : String) (clock : Nat) :
    List (String × Option PyObj) → Finset String → List (String × PyObj) →
      List (String × FTree) → ObjLoopOut
  | [], disk, pk, ft => ⟨disk, pk, ft, [], []⟩
  | (role, obj?) :: rest, disk, pk, ft =>
      match obj? with
      | none => saveObjectsLoop fd name clock rest disk pk ft
      | some obj =>
          let obj1 := prepObj obj
          let base := fd ++ "/" ++ (name ++ "_" ++ role)
          let fin := (get_no_overwrite_path disk base ".pkl" true false).1.1
          let disk1 := insert fin disk
          let pk1 := insertReplace pk fin obj1
          let ft1 := update_file_tree ft ["files", takeBasename fin] clock obj1.nbytes
          let out := saveObjectsLoop fd name clock rest disk1 pk1 ft1
          { out with
              written := (role, fin) :: out.written,
              hooks := if obj.hasHook then role :: out.hooks else out.hooks }

/-- Observable record of one `save_checkpoint` call. -/
structure SaveLog where
  hooks : List String
  written : List (String × String)
  info : CheckpointInfo
  docWrites : List DocEvent

/-- Embedding of `save_checkpoint(name, **objects_to_save)`.  Returns `none` exactly when
the Python code raises: with `model=None` among the keyword arguments the
final `checkpoint_info['files']['model']` read is a `KeyError`, because the
loop skipped the `None` object and never recorded a `'model'` file. -/
def save_checkpoint (st : MLState) (name : String) (objs : List (String × Option PyObj)) :
    Option (MLState × SaveLog) :=
  let L := saveObjectsLoop st.files_dir name st.clock objs st.disk st.pickledFiles st.file_tree
  let files := L.written.map (fun rp => (rp.1, takeBasename rp.2))
  let info : CheckpointInfo :=
    { name := name, phase := st.current_phase.value, saved_at := st.clock, files := files }
  let db1 := insertReplace st.checkpoint_db name info
  let ss1 := { st.shared_storage with
      latest_checkpoint := some name,
      total_checkpoints := st.shared_storage.total_checkpoints + 1 }
  let ss2? : Option SharedStorage :=
    if "model" ∈ objs.map Prod.fst then
      match alookup "model" files with
      | some fn => some { ss1 with latest_model_file := some fn }
      | none => none
    else some ss1
  ss2?.map fun ss2 =>
    let st1 := { st with
        disk := L.disk, pickledFiles := L.pickledFiles, file_tree := L.ftree,
        checkpoint_db := db1, shared_storage := ss2 }
    let sv := save_all_state st1
    (sv.1, { hooks := L.hooks, written := L.written, info := info, docWrites := sv.2 })

/-- The `load_checkpoint` failure modes: the `ValueError` raised for an unknown
name (reporting the available names), and a propagated unpickling error when
an existing referenced file does not hold a pickled object. -/
inductive LoadErr where
  | notFound (available : List String)
  | unpickling
deriving DecidableEq

/-- The dict returned by `load_checkpoint`: the checkpoint record under
`'checkpoint_info'` plus one entry per successfully loaded role. -/
structure LoadResult where
  checkpoint_info : CheckpointInfo
  objects : List (String × PyObj)
deriving DecidableEq

/-- The per-file loop of `load_checkpoint`: a missing file is skipped with a
console warning (no entry of any kind in the result); an existing file is
unpickled. -/
def loadFilesLoop (fd : String) (disk : Finset String) (pk : List (String × PyObj)) :
    List (String × String) → Except LoadErr (List (String × PyObj))
  | [] => .ok []
  | (role, fn) :: rest =>
      let fp := fd ++ "/" ++ fn
      if fp ∈ disk then
        match alookup fp pk with
        | some o => (loadFilesLoop fd disk pk rest).map (fun l => (role, o) :: l)
        | none => .error .unpickling
      else loadFilesLoop fd disk pk rest

/-- Embedding of `load_checkpoint(name)`: `ValueError` (`NotFound`) if `name` is not in
the checkpoint db; otherwise load each recorded file.  The state component
of the result is the input state: the method performs no writes. -/
def load_checkpoint (st : MLState) (name : String) :
    Except LoadErr LoadResult × MLState :=
  match alookup name st.checkpoint_db with
  | none => (.error (.notFound (st.checkpoint_db.map Prod.fst)), st)
  | some info =>
      ((loadFilesLoop st.files_dir st.disk st.pickledFiles info.files).map
        (fun objs => { checkpoint_info := info, objects := objs }), st)

/-- Embedding of `initial_setup(project_folder, project_name)` on a fresh filesystem:
create the project folder (the mocked `setup_storage`), the two
subdirectories, find no existing documents to load, initialize the in-memory
documents and run `_save_all_state`. -/
def initial_setup (project_folder project_name : String) (clock : Nat) : MLState :=
  let st : MLState :=
    { project_path := project_folder,
      files_dir := project_folder ++ "/files",
      main_yaml_path := project_folder ++ "/main.yaml",
      shared_storage_path := project_folder ++ "/shared_storage.yaml",
      file_tree_path := project_folder ++ "/file_tree.yaml",
      tiny_db_path := project_folder ++ "/tiny_db.json",
      old_yamls_dir := project_folder ++ "/old_yamls",
      disk := insert (project_folder ++ "/files")
        (insert (project_folder ++ "/old_yamls")
          (insert project_folder ∅)),
      pickledFiles := [],
      main_config := [("project_settings", "")],
      shared_storage :=
        { project_name := project_name,
          created_at := clock,
          current_phase := ProjectPhase.setup.value,
          latest_model_file := none,
          latest_checkpoint := none,
          total_checkpoints := 0,
          phase_changes := [] },
      file_tree := [("root", FTree.node [])],
      checkpoint_db := [],
      current_phase := ProjectPhase.setup,
      clock := clock }
  (save_all_state st).1

/-- External deletion of a file from disk (the scenario operation of the
partial-load claims, not part of the store's own API). -/
def deleteFile (st : MLState) (p : String) : MLState :=
  { st with
      disk := st.disk.erase p,
      pickledFiles := st.pickledFiles.filter (fun e => e.1 ≠ p) }

/-! ## Supporting lemmas about `save_checkpoint` / `load_checkpoint` -/

/-- Roles of the objects that are actually saved (the non-`None` keyword
arguments, in order). -/
def someKeys (objs : List (String × Option PyObj)) : List String :=
  (objs.filter (fun x => x.2.isSome)).map Prod.fst

theorem someKeys_cons_none (k₀ : String) (tl : List (String × Option PyObj)) :
    someKeys ((k₀, none) :: tl) = someKeys tl := by
  simp [someKeys, List.filter_cons]

theorem someKeys_cons_some (k₀ : String) (o₀ : PyObj) (tl : List (String × Option PyObj)) :
    someKeys ((k₀, some o₀) :: tl) = k₀ :: someKeys tl := by
  simp [someKeys, List.filter_cons]

theorem mem_someKeys_iff (objs : List (String × Option PyObj)) (k : String) :
    k ∈ someKeys objs ↔ ∃ o, (k, some o) ∈ objs := by
  induction objs with
  | nil => simp [someKeys]
  | cons hd tl ih =>
      obtain ⟨k₀, o₀⟩ := hd
      cases o₀ with
      | none =>
          rw [someKeys_cons_none, ih]
          constructor
          · rintro ⟨o, ho⟩; exact ⟨o, List.mem_cons_of_mem _ ho⟩
          · rintro ⟨o, ho⟩
            rcases List.mem_cons.mp ho with he | he
            · simp at he
            · exact ⟨o, he⟩
      | some o₀ =>
          rw [someKeys_cons_some]
          simp only [List.mem_cons, ih, Prod.mk.injEq]
          constructor
          · rintro (rfl | ⟨o, ho⟩)
            · exact ⟨o₀, Or.inl ⟨rfl, rfl⟩⟩
            · exact ⟨o, Or.inr ho⟩
          · rintro ⟨o, (⟨rfl, h⟩ | ho)⟩
            · exact Or.inl rfl
            · exact Or.inr ⟨o, ho⟩

theorem nodup_keys_value_unique {β : Type} {l : List (String × β)} {k : String} {a b : β}
    (hnd : (l.map Prod.fst).Nodup) (ha : (k, a) ∈ l) (hb : (k, b) ∈ l) : a = b := by
  have h₁ := alookup_eq_some_of_mem hnd ha
  have h₂ := alookup_eq_some_of_mem hnd hb
  rw [h₁] at h₂
  exact Option.some.inj h₂

theorem saveObjectsLoop_mono (fd name : String) (clock : Nat)
    (objs : List (String × Option PyObj)) :
    ∀ disk pk ft x, x ∈ disk →
      x ∈ (saveObjectsLoop fd name clock objs disk pk ft).disk := by
  induction objs with
  | nil => intro disk pk ft x hx; simpa [saveObjectsLoop] using hx
  | cons hd tl ih =>
      obtain ⟨role, obj?⟩ := hd
      intro disk pk ft x hx
      cases obj? with
      | none => exact ih disk pk ft x hx
      | some obj =>
          simp only [saveObjectsLoop]
          exact ih _ _ _ x (Finset.mem_insert_of_mem hx)

theorem saveObjectsLoop_written_fresh (fd name : String) (clock : Nat)
    (objs : List (String × Option PyObj)) :
    ∀ disk pk ft r p, (r, p) ∈ (saveObjectsLoop fd name clock objs disk pk ft).written →
      p ∉ disk ∧ p ∈ (saveObjectsLoop fd name clock objs disk pk ft).disk := by
  induction objs with
  | nil => intro disk pk ft r p hp; simp [saveObjectsLoop] at hp
  | cons hd tl ih =>
      obtain ⟨role, obj?⟩ := hd
      intro disk pk ft r p hp
      cases obj? with
      | none => exact ih disk pk ft r p hp
      | some obj =>
          simp only [saveObjectsLoop, List.mem_cons] at hp ⊢
          rcases hp with he | hmem
          · simp only [Prod.mk.injEq] at he
            obtain ⟨rfl, rfl⟩ := he
            refine ⟨gnop_fresh disk (fd ++ "/" ++ (name ++ "_" ++ r)) ".pkl" true false, ?_⟩
            exact saveObjectsLoop_mono fd name clock tl _ _ _ _ (Finset.mem_insert_self _ _)
          · have := ih _ _ _ r p hmem
            refine ⟨fun hc => this.1 (Finset.mem_insert_of_mem hc), this.2⟩

theorem saveObjectsLoop_base_mem (fd name : String) (clock : Nat)
    (objs : List (String × Option PyObj)) :
    ∀ disk pk ft r p, (r, p) ∈ (saveObjectsLoop fd name clock objs disk pk ft).written →
      (fd ++ "/" ++ (name ++ "_" ++ r)) ++ ".pkl" ∈
        (saveObjectsLoop fd name clock objs disk pk ft).disk := by
  induction objs with
  | nil => intro disk pk ft r p hp; simp [saveObjectsLoop] at hp
  | cons hd tl ih =>
      obtain ⟨role, obj?⟩ := hd
      intro disk pk ft r p hp
      cases obj? with
      | none => exact ih disk pk ft r p hp
      | some obj =>
          simp only [saveObjectsLoop, List.mem_cons] at hp ⊢
          rcases hp with he | hmem
          · simp only [Prod.mk.injEq] at he
            obtain ⟨rfl, rfl⟩ := he
            have hb := gnop_base_mem disk (fd ++ "/" ++ (name ++ "_" ++ r)) ".pkl" true false
            exact saveObjectsLoop_mono fd name clock tl _ _ _ _ hb
          · exact ih _ _ _ r p hmem

theorem saveObjectsLoop_suffixed (fd name : String) (clock : Nat)
    (objs : List (String × Option PyObj)) :
    ∀ disk pk ft r p, (r, p) ∈ (saveObjectsLoop fd name clock objs disk pk ft).written →
      (fd ++ "/" ++ (name ++ "_" ++ r)) ++ ".pkl" ∈ disk →
      ∃ k, 1 ≤ k ∧ p = sufName (fd ++ "/" ++ (name ++ "_" ++ r)) k ".pkl" := by
  induction objs with
  | nil => intro disk pk ft r p hp; simp [saveObjectsLoop] at hp
  | cons hd tl ih =>
      obtain ⟨role, obj?⟩ := hd
      intro disk pk ft r p hp hbase
      cases obj? with
      | none => exact ih disk pk ft r p hp hbase
      | some obj =>
          simp only [saveObjectsLoop, List.mem_cons] at hp
          rcases hp with he | hmem
          · simp only [Prod.mk.injEq] at he
            obtain ⟨rfl, rfl⟩ := he
            exact gnop_suffixed disk (fd ++ "/" ++ (name ++ "_" ++ r)) ".pkl" true false hbase
          · exact ih _ _ _ r p hmem (Finset.mem_insert_of_mem hbase)

theorem saveObjectsLoop_written_keys (fd name : String) (clock : Nat)
    (objs : List (String × Option PyObj)) :
    ∀ disk pk ft,
      (saveObjectsLoop fd name clock objs disk pk ft).written.map Prod.fst =
        someKeys objs := by
  induction objs with
  | nil => intro disk pk ft; simp [saveObjectsLoop, someKeys]
  | cons hd tl ih =>
      obtain ⟨role, obj?⟩ := hd
      intro disk pk ft
      cases obj? with
      | none =>
          rw [someKeys_cons_none]
          simp only [saveObjectsLoop]
          exact ih disk pk ft
      | some obj =>
          rw [someKeys_cons_some]
          simp only [saveObjectsLoop, List.map_cons, List.cons.injEq, true_and]
          exact ih _ _ _

theorem saveObjectsLoop_hooks_sub (fd name : String) (clock : Nat)
    (objs : List (String × Option PyObj)) :
    ∀ disk pk ft x, x ∈ (saveObjectsLoop fd name clock objs disk pk ft).hooks →
      x ∈ someKeys objs := by
  induction objs with
  | nil => intro disk pk ft x hx; simp [saveObjectsLoop] at hx
  | cons hd tl ih =>
      obtain ⟨role, obj?⟩ := hd
      intro disk pk ft x hx
      cases obj? with
      | none =>
          have := ih disk pk ft x hx
          rw [mem_someKeys_iff] at this ⊢
          obtain ⟨o, ho⟩ := this
          exact ⟨o, List.mem_cons_of_mem _ ho⟩
      | some obj =>
          simp only [saveObjectsLoop] at hx
          rw [mem_someKeys_iff]
          by_cases hh : obj.hasHook
          · simp only [hh, if_true, List.mem_cons] at hx
            rcases hx with rfl | hx
            · exact ⟨obj, List.mem_cons_self _ _⟩
            · have := ih _ _ _ x hx
              rw [mem_someKeys_iff] at this
              obtain ⟨o, ho⟩ := this
              exact ⟨o, List.mem_cons_of_mem _ ho⟩
          · simp only [hh, if_false] at hx
            have := ih _ _ _ x hx
            rw [mem_someKeys_iff] at this
            obtain ⟨o, ho⟩ := this
            exact ⟨o, List.mem_cons_of_mem _ ho⟩

/-- Structural description of a successful `save_checkpoint`. -/
theorem save_checkpoint_spec (st : MLState) (name : String)
    (objs : List (String × Option PyObj)) (st' : MLState) (log : SaveLog)
    (h : save_checkpoint st name objs = some (st', log)) :
    log.written =
        (saveObjectsLoop st.files_dir name st.clock objs st.disk st.pickledFiles
          st.file_tree).written ∧
      log.hooks =
        (saveObjectsLoop st.files_dir name st.clock objs st.disk st.pickledFiles
          st.file_tree).hooks ∧
      log.info.name = name ∧
      log.info.phase = st.current_phase.value ∧
      log.info.saved_at = st.clock ∧
      log.info.files =
        (saveObjectsLoop st.files_dir name st.clock objs st.disk st.pickledFiles
          st.file_tree).written.map (fun rp => (rp.1, takeBasename rp.2)) ∧
      log.docWrites =
        [DocEvent.mainYaml, DocEvent.sharedStorage, DocEvent.fileTree, DocEvent.tinyDb] ∧
      st'.disk = insert st.tiny_db_path (insert st.file_tree_path
        (insert st.shared_storage_path (insert st.main_yaml_path
          (saveObjectsLoop st.files_dir name st.clock objs st.disk st.pickledFiles
            st.file_tree).disk))) ∧
      st'.pickledFiles =
        (saveObjectsLoop st.files_dir name st.clock objs st.disk st.pickledFiles
          st.file_tree).pickledFiles ∧
      st'.checkpoint_db = insertReplace st.checkpoint_db name log.info ∧
      st'.files_dir = st.files_dir ∧
      st'.clock = st.clock := by
  simp only [save_checkpoint, Option.map_eq_some'] at h
  obtain ⟨ss2, hss, heq⟩ := h
  simp only [save_all_state, Prod.mk.injEq] at heq
  obtain ⟨hst, hlog⟩ := heq
  subst hst
  subst hlog
  simp [save_all_state]

/-- Lemma: `save_checkpoint` succeeds iff no `model=None` keyword argument was
passed (the only way the Python body raises). -/
theorem save_checkpoint_isSome_iff (st : MLState) (name : String)
    (objs : List (String × Option PyObj)) (hnd : (objs.map Prod.fst).Nodup) :
    (save_checkpoint st name objs).isSome ↔ ("model", (none : Option PyObj)) ∉ objs := by
  have hkeys := saveObjectsLoop_written_keys st.files_dir name st.clock objs st.disk
    st.pickledFiles st.file_tree
  simp only [save_checkpoint, Option.isSome_map']
  by_cases hm : "model" ∈ objs.map Prod.fst
  · simp only [hm, if_true]
    have hfileskeys :
        ((saveObjectsLoop st.files_dir name st.clock objs st.disk st.pickledFiles
          st.file_tree).written.map (fun rp => (rp.1, takeBasename rp.2))).map Prod.fst =
          someKeys objs := by
      rw [← hkeys, List.map_map]
      rfl
    constructor
    · intro hsome hmem
      -- a model=None argument: 'model' is not among the saved roles, so the
      -- alookup fails and the match yields none
      rcases hfk : alookup "model"
          ((saveObjectsLoop st.files_dir name st.clock objs st.disk st.pickledFiles
            st.file_tree).written.map (fun rp => (rp.1, takeBasename rp.2))) with _ | fn
      · rw [hfk] at hsome
        simp at hsome
      · have hmemk : "model" ∈ someKeys objs := by
          rw [← hfileskeys]
          rw [← alookup_isSome_iff, hfk]
          rfl
        rw [mem_someKeys_iff] at hmemk
        obtain ⟨o, ho⟩ := hmemk
        exact (by simpa using nodup_keys_value_unique hnd ho hmem : False)
    · intro hnone
      obtain ⟨v, hv⟩ : ∃ v, ("model", v) ∈ objs := by
        obtain ⟨pr, hpr, hpe⟩ := List.mem_map.mp hm
        exact ⟨pr.2, by rwa [show ("model", pr.2) = pr from Prod.ext hpe.symm rfl]⟩
      cases v with
      | none => exact absurd hv hnone
      | some o =>
          have hmemk : "model" ∈ someKeys objs := (mem_someKeys_iff objs "model").mpr ⟨o, hv⟩
          rw [← hfileskeys, ← alookup_isSome_iff] at hmemk
          obtain ⟨fn, hfn⟩ := Option.isSome_iff_exists.mp hmemk
          rw [hfn]
          rfl
  · simp only [hm, if_false]
    constructor
    · intro _ hmem
      exact hm (List.mem_map.mpr ⟨("model", none), hmem, rfl⟩)
    · intro _
      rfl

/-! ## Basename round-trip for the saved object paths

`save_checkpoint` stores `Path(final_path).name` in the checkpoint record and
`load_checkpoint` rebuilds `files_dir / filename`; when the path stem is
slash-free the two compose to the identity. -/

theorem takeWhile_stop (p : Char → Bool) :
    ∀ (l₁ : List Char) (x : Char) (l₂ : List Char),
      (∀ c ∈ l₁, p c = true) → p x = false →
      (l₁ ++ x :: l₂).takeWhile p = l₁ := by
  intro l₁
  induction l₁ with
  | nil => intro x l₂ _ hx; simp [List.takeWhile_cons, hx]
  | cons hd tl ih =>
      intro x l₂ h hx
      have hhd : p hd = true := h hd (List.mem_cons_self _ _)
      simp [List.takeWhile_cons, hhd,
        ih x l₂ (fun c hc => h c (List.mem_cons_of_mem _ hc)) hx]

theorem append_slash_data (d s : String) :
    (d ++ "/" ++ s).data = d.data ++ '/' :: s.data := by
  simp only [String.data_append]
  rw [List.append_assoc]
  rfl

theorem takeBasename_of_append (d stem : String) (hstem : ∀ c ∈ stem.data, c ≠ '/') :
    takeBasename (d ++ "/" ++ stem) = stem := by
  obtain ⟨sd⟩ := stem
  unfold takeBasename
  rw [append_slash_data]
  apply String.ext
  show ((d.data ++ '/' :: sd).reverse.takeWhile (fun c => c ≠ '/')).reverse = sd
  have h1 : (d.data ++ '/' :: sd).reverse = sd.reverse ++ '/' :: d.data.reverse := by
    simp [List.reverse_append]
  rw [h1, takeWhile_stop _ sd.reverse '/' d.data.reverse
    (fun c hc => decide_eq_true (hstem c (List.mem_reverse.mp hc)))
    (by decide), List.reverse_reverse]

theorem pkl_chars_ne_slash : ∀ c ∈ ".pkl".data, c ≠ '/' := by decide

theorem decRepr_chars_ne_slash (k : Nat) : ∀ c ∈ decRepr k, c ≠ '/' := by
  intro c hc
  obtain ⟨d, hd, rfl⟩ := decRepr_mem k c hc
  exact digitChar_lt10_ne_slash d hd

/-- Every path the collision resolver returns for a `files_dir/stem` + `.pkl`
request has the form `files_dir ++ "/" ++ t` with `t` slash-free (the stem
plus `.pkl`, possibly with a `_{k}` collision counter in between). -/
theorem gnop_path_shape (fs : Finset String) (fd stem : String) (m w : Bool)
    (hstem : ∀ c ∈ stem.data, c ≠ '/') :
    ∃ t : String, (∀ c ∈ t.data, c ≠ '/') ∧
      (get_no_overwrite_path fs (fd ++ "/" ++ stem) ".pkl" m w).1.1 = fd ++ "/" ++ t := by
  by_cases h : (fd ++ "/" ++ stem) ++ ".pkl" ∈ fs
  · obtain ⟨k, _, hk⟩ := gnop_suffixed fs (fd ++ "/" ++ stem) ".pkl" m w h
    refine ⟨stem ++ "_" ++ ⟨decRepr k⟩ ++ ".pkl", ?_, ?_⟩
    · intro c hc
      simp only [String.data_append, List.mem_append] at hc
      rcases hc with ((hc | hc) | hc) | hc
      · exact hstem c hc
      · have hcu : c = '_' := by simpa using hc
        subst hcu; decide
      · exact decRepr_chars_ne_slash k c hc
      · exact pkl_chars_ne_slash c hc
    · rw [hk]
      unfold sufName
      apply String.ext
      simp [String.data_append, List.append_assoc]
  · have hres : (get_no_overwrite_path fs (fd ++ "/" ++ stem) ".pkl" m w).1.1 =
        (fd ++ "/" ++ stem) ++ ".pkl" := by
      unfold get_no_overwrite_path
      simp [h]
    refine ⟨stem ++ ".pkl", ?_, ?_⟩
    · intro c hc
      simp only [String.data_append, List.mem_append] at hc
      rcases hc with hc | hc
      · exact hstem c hc
      · exact pkl_chars_ne_slash c hc
    · rw [hres]
      apply String.ext
      simp [String.data_append, List.append_assoc]

theorem loadFilesLoop_no_notFound (fd : String) (disk : Finset String)
    (pk : List (String × PyObj)) :
    ∀ files av, loadFilesLoop fd disk pk files ≠ .error (.notFound av) := by
  intro files
  induction files with
  | nil => intro av h; simp [loadFilesLoop] at h
  | cons hd tl ih =>
      obtain ⟨role, fn⟩ := hd
      intro av h
      simp only [loadFilesLoop] at h
      by_cases hm : fd ++ "/" ++ fn ∈ disk
      · simp only [hm, if_true] at h
        rcases hl : alookup (fd ++ "/" ++ fn) pk with _ | o
        · rw [hl] at h
          simp at h
        · rw [hl] at h
          cases hres : loadFilesLoop fd disk pk tl with
          | ok l => rw [hres] at h; simp [Except.map] at h
          | error e =>
              rw [hres] at h
              simp only [Except.map] at h
              have he : e = LoadErr.notFound av := by
                injection h
              exact ih av (by rw [← he]; exact hres)
      · simp only [hm, if_false] at h
        exact ih av h

/-- Position of a document write in a `_save_all_state` event list. -/
def writeIdx (l : List DocEvent) (e : DocEvent) : Nat :=
  l.findIdx (fun x => decide (x = e))

/-- C3 (counterexample): with the filesystem `{"a.txt"}` unchanged between
the calls, both calls to the no-overwrite resolver on base `"a"` and suffix
`".txt"` return the same path `"a_1.txt"` — not two distinct paths as the
claim states (the resolver creates nothing, so nothing changes between the
calls). -/
theorem c3_counterexample :
    (get_no_overwrite_path {"a.txt"} "a" ".txt" true false).1.1 = "a_1.txt" ∧
    (get_no_overwrite_path
        (get_no_overwrite_path {"a.txt"} "a" ".txt" true false).2
        "a" ".txt" true false).1.1 = "a_1.txt" ∧
    (get_no_overwrite_path {"a.txt"} "a" ".txt" true false).1.1 =
      (get_no_overwrite_path
        (get_no_overwrite_path {"a.txt"} "a" ".txt" true false).2
        "a" ".txt" true false).1.1 := by
  refine ⟨?_, ?_, ?_⟩ <;> decide

/-- C3 (amended): calling the no-overwrite resolver twice in succession with
the same base path and suffix, with no other filesystem change in between,
returns the SAME resolved path both times (the resolver performs no
filesystem writes, so the second call sees the same state), and the
filesystem — hence the content of any pre-populated path — is unchanged
after both calls. -/
theorem c3_amended (fs : Finset String) (b s : String) (m w m' w' : Bool) :
    (get_no_overwrite_path (get_no_overwrite_path fs b s m w).2 b s m' w').1.1 =
        (get_no_overwrite_path fs b s m w).1.1 ∧
      (get_no_overwrite_path (get_no_overwrite_path fs b s m w).2 b s m' w').2 = fs := by
  constructor
  · rw [gnop_fs fs b s m w, gnop_flags fs b s m' w' m w]
  · rw [gnop_fs fs b s m w, gnop_fs fs b s m' w']

/-- C9: `get_no_overwrite_path` never modifies the filesystem — the state it
returns is its input state — and the `make_folders_on_path` /
`warn_if_already_exists` parameters have no effect on the result (the source
body never uses them and contains no `os.makedirs` call). -/
theorem c9_no_overwrite_pure (fs : Finset String) (b s : String) (m w m' w' : Bool) :
    (get_no_overwrite_path fs b s m w).2 = fs ∧
      get_no_overwrite_path fs b s m w = get_no_overwrite_path fs b s m' w' :=
  ⟨gnop_fs fs b s m w, gnop_flags fs b s m w m' w'⟩

/-- C4: for every `N`, a sequence of `N` `novel_start_of_folder` calls with
the same (initially empty) parent and the same semantic label succeeds and
returns `N` pairwise-distinct folder names, all of which exist as
directories afterwards. -/
theorem c4_sequential_alloc_unique (semantic_id : String) (N : Nat) :
    ∃ l S, allocSeq semantic_id N = some (l, S) ∧ l.length = N ∧ l.Nodup ∧
      ∀ x ∈ l, x ∈ S := by
  induction N with
  | zero => exact ⟨[], ∅, rfl, rfl, List.nodup_nil, by simp⟩
  | succ n ih =>
      obtain ⟨l, S, hseq, hlen, hnd, hsub⟩ := ih
      obtain ⟨nm, hnm, hfree⟩ := novel_start_of_folder_some S semantic_id
      refine ⟨l ++ [nm], insert nm S, ?_, ?_, ?_, ?_⟩
      · simp [allocSeq, hseq, hnm]
      · simp [hlen]
      · refine List.Nodup.append hnd (List.nodup_singleton nm) ?_
        intro a ha hb
        rw [List.mem_singleton] at hb
        subst hb
        exact hfree (hsub a ha)
      · intro x hx
        rcases List.mem_append.mp hx with hx | hx
        · exact Finset.mem_insert_of_mem (hsub x hx)
        · rw [List.mem_singleton] at hx
          subst hx
          exact Finset.mem_insert_self _ _

/-- C5: with `digit_num = 2` (namespace of 62 × 62 = 3844 names), whenever at
least one width-2 base-62 name is free in the parent, `novel_folder_anum`
terminates for every starting integer in `[0, 3844)` and returns (and
creates) a previously-unused base-62 name; in particular, when every slot
except one is taken it returns exactly the single free slot. -/
theorem c5_base62_free_slot (S : Finset String) (n₀ : Nat) (h₀ : n₀ < 3844)
    (hfree : ∃ m, m < 3844 ∧ to_base62 m 2 ∉ S) :
    ∃ nm, novel_folder_anum S n₀ 2 = some (nm, insert nm S) ∧ nm ∉ S ∧
      (∃ m, m < 3844 ∧ nm = to_base62 m 2) ∧
      ∀ m₀, m₀ < 3844 → (∀ i, i < 3844 → (to_base62 i 2 ∈ S ↔ i ≠ m₀)) →
        nm = to_base62 m₀ 2 := by
  obtain ⟨m, hm, hmf⟩ := hfree
  have h62 : (62 : Nat) ^ 2 = 3844 := by norm_num
  obtain ⟨nm, hnm⟩ := anumLoop_run2 S 3844 n₀ h₀
    ⟨(m + 3844 - n₀) % 3844, Nat.mod_lt _ (by omega), by
      have heq : (n₀ + (m + 3844 - n₀) % 3844) % 3844 = m := by omega
      rw [heq]; exact hmf⟩
  have hrun : anumLoop S 2 (62 ^ 2) n₀ = some nm := by rw [h62]; exact hnm
  obtain ⟨hfr, m', hm', hb'⟩ := anumLoop_sound S 2 (62 ^ 2) n₀ nm (by omega) hrun
  rw [h62] at hm'
  refine ⟨nm, ?_, hfr, ⟨m', hm', hb'⟩, ?_⟩
  · simp only [novel_folder_anum, Option.map_eq_some']
    exact ⟨nm, hrun, rfl⟩
  · intro m₀ hm₀ hone
    have : m' = m₀ := by
      by_contra hne
      exact hfr (hb' ▸ (hone m' hm').mpr hne)
    rw [hb', this]

/-- C5 witness: an empty parent directory has every slot free; starting at 0
the first probe `"00"` succeeds immediately. -/
theorem c5_base62_free_slot_witness :
    ((0 : Nat) < 3844 ∧ ∃ m, m < 3844 ∧ to_base62 m 2 ∉ (∅ : Finset String)) ∧
    (∃ nm, novel_folder_anum ∅ 0 2 = some (nm, insert nm ∅) ∧ nm ∉ (∅ : Finset String) ∧
      (∃ m, m < 3844 ∧ nm = to_base62 m 2) ∧
      ∀ m₀, m₀ < 3844 → (∀ i, i < 3844 → (to_base62 i 2 ∈ (∅ : Finset String) ↔ i ≠ m₀)) →
        nm = to_base62 m₀ 2) :=
  ⟨⟨by decide, 0, by decide, by decide⟩,
   c5_base62_free_slot ∅ 0 (by decide) ⟨0, by decide, by decide⟩⟩

/-- C7: `load_checkpoint(name)` fails with the not-found error exactly when
`name` is absent from the checkpoint index, and the store's state (index,
shared-state, file tree, disk) is returned unchanged. -/
theorem c7_load_notfound_iff (st : MLState) (name : String) :
    ((∃ av, (load_checkpoint st name).1 = .error (.notFound av)) ↔
      alookup name st.checkpoint_db = none) ∧
    (load_checkpoint st name).2 = st := by
  constructor
  · cases hdb : alookup name st.checkpoint_db with
    | none =>
        simp only [load_checkpoint, hdb]
        simp
    | some info =>
        simp only [load_checkpoint, hdb]
        constructor
        · rintro ⟨av, hav⟩
          exfalso
          cases hres : loadFilesLoop st.files_dir st.disk st.pickledFiles info.files with
          | ok l => rw [hres] at hav; simp [Except.map] at hav
          | error e =>
              rw [hres] at hav
              simp only [Except.map] at hav
              have he : e = LoadErr.notFound av := by injection hav
              exact loadFilesLoop_no_notFound st.files_dir st.disk st.pickledFiles
                info.files av (by rw [← he]; exact hres)
        · intro hc
          simp at hc
  · cases hdb : alookup name st.checkpoint_db <;> simp [load_checkpoint, hdb]

/-- C2 (counterexample): in a concrete `save_checkpoint` call the write-event
order of the final `_save_all_state` is `main.yaml`, `shared_storage.yaml`,
`file_tree.yaml`, `tiny_db.json` — the checkpoint-index (`tiny_db.json`) is
written LAST, not strictly before the shared-state write as the claim
states. -/
theorem c2_counterexample :
    ∃ st' log, save_checkpoint (initial_setup "proj" "P" 0) "c"
        [("a", some ⟨false, false, 0, 0⟩)] = some (st', log) ∧
      log.docWrites = [DocEvent.mainYaml, DocEvent.sharedStorage, DocEvent.fileTree,
        DocEvent.tinyDb] ∧
      ¬ writeIdx log.docWrites DocEvent.tinyDb <
          writeIdx log.docWrites DocEvent.sharedStorage := by
  have hs := (save_checkpoint_isSome_iff (initial_setup "proj" "P" 0) "c"
    [("a", some ⟨false, false, 0, 0⟩)] (by decide)).mpr (by decide)
  obtain ⟨⟨st', log⟩, hsl⟩ := Option.isSome_iff_exists.mp hs
  obtain ⟨_, _, _, _, _, _, hdw, _⟩ :=
    save_checkpoint_spec (initial_setup "proj" "P" 0) "c"
      [("a", some ⟨false, false, 0, 0⟩)] st' log hsl
  refine ⟨st', log, hsl, hdw, ?_⟩
  rw [hdw]
  decide

/-- C2 (amended): every successful `save_checkpoint` persists the
checkpoint-index and the shared-state documents together in its final
`_save_all_state` call, with the SHARED-STATE written strictly before the
CHECKPOINT-INDEX (the index is the last write), so an interruption between
the two writes leaves shared-state already durable while the
checkpoint-index is stale. -/
theorem c2_amended (st : MLState) (name : String) (objs : List (String × Option PyObj))
    (hnd : (objs.map Prod.fst).Nodup)
    (hnone : ("model", (none : Option PyObj)) ∉ objs) :
    ∃ st' log, save_checkpoint st name objs = some (st', log) ∧
      log.docWrites = [DocEvent.mainYaml, DocEvent.sharedStorage, DocEvent.fileTree,
        DocEvent.tinyDb] ∧
      DocEvent.sharedStorage ∈ log.docWrites ∧
      DocEvent.tinyDb ∈ log.docWrites ∧
      writeIdx log.docWrites DocEvent.sharedStorage <
        writeIdx log.docWrites DocEvent.tinyDb := by
  have hs := (save_checkpoint_isSome_iff st name objs hnd).mpr hnone
  obtain ⟨⟨st', log⟩, hsl⟩ := Option.isSome_iff_exists.mp hs
  obtain ⟨_, _, _, _, _, _, hdw, _⟩ := save_checkpoint_spec st name objs st' log hsl
  refine ⟨st', log, hsl, hdw, ?_, ?_, ?_⟩ <;> rw [hdw] <;> decide

/-- C2 witness: the amended order property at a concrete call. -/
theorem c2_amended_witness :
    (([("a", some (⟨false, false, 0, 0⟩ : PyObj))].map Prod.fst).Nodup ∧
      ("model", (none : Option PyObj)) ∉ [("a", some (⟨false, false, 0, 0⟩ : PyObj))]) ∧
    (∃ st' log, save_checkpoint (initial_setup "proj" "P" 0) "c"
        [("a", some ⟨false, false, 0, 0⟩)] = some (st', log) ∧
      log.docWrites = [DocEvent.mainYaml, DocEvent.sharedStorage, DocEvent.fileTree,
        DocEvent.tinyDb] ∧
      DocEvent.sharedStorage ∈ log.docWrites ∧
      DocEvent.tinyDb ∈ log.docWrites ∧
      writeIdx log.docWrites DocEvent.sharedStorage <
        writeIdx log.docWrites DocEvent.tinyDb) :=
  ⟨⟨by decide, by decide⟩,
   c2_amended (initial_setup "proj" "P" 0) "c" [("a", some ⟨false, false, 0, 0⟩)]
     (by decide) (by decide)⟩

/-- C10 (counterexample): passing `model=None` to `save_checkpoint` is not a
silent skip — the call raises (a `KeyError` at the
`checkpoint_info['files']['model']` read, since the loop skipped the `None`
object and recorded no `'model'` file), modelled as a `none` result. -/
theorem c10_counterexample :
    save_checkpoint (initial_setup "proj" "P" 0) "c"
      [("model", (none : Option PyObj))] = none := by
  rw [← Option.not_isSome_iff_eq_none,
    save_checkpoint_isSome_iff _ _ _ (by decide)]
  decide

/-- C10 (amended): every `None`-valued object is skipped by the save loop —
its finalize hook is not invoked, no file is written for it, and its role
does not appear in the recorded role→filename mapping of the resulting
checkpoint entry — but the skip is only silent for roles other than
`"model"`: `save_checkpoint` raises (returns `none`) exactly when the
`"model"` role itself is `None`-valued, because the latest-model-pointer
update then reads a mapping entry that was never written. -/
theorem c10_amended (st : MLState) (name : String) (objs : List (String × Option PyObj))
    (role : String) (hmem : (role, (none : Option PyObj)) ∈ objs)
    (hnd : (objs.map Prod.fst).Nodup) :
    role ∉ (saveObjectsLoop st.files_dir name st.clock objs st.disk st.pickledFiles
        st.file_tree).hooks ∧
    role ∉ (saveObjectsLoop st.files_dir name st.clock objs st.disk st.pickledFiles
        st.file_tree).written.map Prod.fst ∧
    (save_checkpoint st name objs = none ↔ ("model", (none : Option PyObj)) ∈ objs) ∧
    (∀ st' log, save_checkpoint st name objs = some (st', log) →
      role ∉ log.info.files.map Prod.fst) := by
  have hns : role ∉ someKeys objs := by
    rw [mem_someKeys_iff]
    rintro ⟨o, ho⟩
    have := nodup_keys_value_unique hnd hmem ho
    simp at this
  refine ⟨?_, ?_, ?_, ?_⟩
  · intro hc
    exact hns (saveObjectsLoop_hooks_sub st.files_dir name st.clock objs st.disk
      st.pickledFiles st.file_tree role hc)
  · rw [saveObjectsLoop_written_keys]
    exact hns
  · rw [← Option.not_isSome_iff_eq_none, save_checkpoint_isSome_iff st name objs hnd]
    simp
  · intro st' log hsl
    obtain ⟨_, _, _, _, _, hfiles, _⟩ := save_checkpoint_spec st name objs st' log hsl
    rw [hfiles, List.map_map]
    have : (Prod.fst ∘ fun rp : String × String => (rp.1, takeBasename rp.2)) = Prod.fst := by
      funext x
      rfl
    rw [this, saveObjectsLoop_written_keys]
    exact hns

/-- C10 witness: a call with a `None`-valued role `"a"` next to a real
object. -/
theorem c10_amended_witness :
    ((("a", (none : Option PyObj)) ∈
        [("a", (none : Option PyObj)), ("b", some (⟨true, false, 1, 1⟩ : PyObj))] ∧
      (([("a", (none : Option PyObj)), ("b", some (⟨true, false, 1, 1⟩ : PyObj))].map
        Prod.fst).Nodup))) ∧
    (let st := initial_setup "proj" "P" 0
     let objs := [("a", (none : Option PyObj)), ("b", some (⟨true, false, 1, 1⟩ : PyObj))]
     "a" ∉ (saveObjectsLoop st.files_dir "c" st.clock objs st.disk st.pickledFiles
        st.file_tree).hooks ∧
     "a" ∉ (saveObjectsLoop st.files_dir "c" st.clock objs st.disk st.pickledFiles
        st.file_tree).written.map Prod.fst ∧
     (save_checkpoint st "c" objs = none ↔ ("model", (none : Option PyObj)) ∈ objs) ∧
     (∀ st' log, save_checkpoint st "c" objs = some (st', log) →
       "a" ∉ log.info.files.map Prod.fst)) :=
  ⟨⟨by decide, by decide⟩,
   c10_amended (initial_setup "proj" "P" 0) "c"
     [("a", (none : Option PyObj)), ("b", some (⟨true, false, 1, 1⟩ : PyObj))] "a"
     (by decide) (by decide)⟩

/-- C8: saving twice under the same checkpoint name replaces the index entry
(the index holds exactly one entry for the name, carrying the second save's
record), while no object file written by the first save is overwritten by
the second: every file of the second save is written to a path that did not
exist after the first save, and carries a fresh `_{k}`-suffixed filename. -/
theorem c8_save_twice (st₀ : MLState) (name : String)
    (objs : List (String × Option PyObj))
    (hnd : (objs.map Prod.fst).Nodup)
    (hdb : (st₀.checkpoint_db.map Prod.fst).Nodup)
    (hnone : ("model", (none : Option PyObj)) ∉ objs) :
    ∃ st₁ log₁ st₂ log₂,
      save_checkpoint st₀ name objs = some (st₁, log₁) ∧
      save_checkpoint st₁ name objs = some (st₂, log₂) ∧
      alookup name st₂.checkpoint_db = some log₂.info ∧
      keyCount name st₂.checkpoint_db = 1 ∧
      (∀ r p, (r, p) ∈ log₁.written →
        p ∈ st₂.disk ∧ p ∉ log₂.written.map Prod.snd) ∧
      (∀ r p, (r, p) ∈ log₂.written → p ∉ st₁.disk ∧
        ∃ k, 1 ≤ k ∧
          p = sufName (st₀.files_dir ++ "/" ++ (name ++ "_" ++ r)) k ".pkl") := by
  have hs₁ := (save_checkpoint_isSome_iff st₀ name objs hnd).mpr hnone
  obtain ⟨⟨st₁, log₁⟩, hsl₁⟩ := Option.isSome_iff_exists.mp hs₁
  obtain ⟨hw₁, _, _, _, _, _, _, hdisk₁, hpk₁, hdb₁, hfd₁, hck₁⟩ :=
    save_checkpoint_spec st₀ name objs st₁ log₁ hsl₁
  have hs₂ := (save_checkpoint_isSome_iff st₁ name objs hnd).mpr hnone
  obtain ⟨⟨st₂, log₂⟩, hsl₂⟩ := Option.isSome_iff_exists.mp hs₂
  obtain ⟨hw₂, _, _, _, _, _, _, hdisk₂, hpk₂, hdb₂, hfd₂, hck₂⟩ :=
    save_checkpoint_spec st₁ name objs st₂ log₂ hsl₂
  have hmono₁ : ∀ x, x ∈ (saveObjectsLoop st₀.files_dir name st₀.clock objs st₀.disk
      st₀.pickledFiles st₀.file_tree).disk → x ∈ st₁.disk := by
    intro x hx
    rw [hdisk₁]
    exact Finset.mem_insert_of_mem (Finset.mem_insert_of_mem
      (Finset.mem_insert_of_mem (Finset.mem_insert_of_mem hx)))
  have hmono₂ : ∀ x, x ∈ st₁.disk → x ∈ st₂.disk := by
    intro x hx
    rw [hdisk₂]
    refine Finset.mem_insert_of_mem (Finset.mem_insert_of_mem
      (Finset.mem_insert_of_mem (Finset.mem_insert_of_mem ?_)))
    exact saveObjectsLoop_mono st₁.files_dir name st₁.clock objs st₁.disk
      st₁.pickledFiles st₁.file_tree x hx
  refine ⟨st₁, log₁, st₂, log₂, hsl₁, hsl₂, ?_, ?_, ?_, ?_⟩
  · rw [hdb₂]
    exact alookup_insertReplace_self _ _ _
  · rw [hdb₂]
    refine keyCount_insertReplace _ _ _ ?_
    rw [hdb₁]
    exact keys_nodup_insertReplace _ _ _ hdb
  · intro r p hp
    rw [hw₁] at hp
    have hfr₁ := saveObjectsLoop_written_fresh st₀.files_dir name st₀.clock objs st₀.disk
      st₀.pickledFiles st₀.file_tree r p hp
    have hmem₁ : p ∈ st₁.disk := hmono₁ p hfr₁.2
    refine ⟨hmono₂ p hmem₁, ?_⟩
    intro hc
    rw [hw₂] at hc
    obtain ⟨⟨r', p'⟩, hmem', hpe⟩ := List.mem_map.mp hc
    have hpe' : p' = p := hpe
    subst hpe'
    exact (saveObjectsLoop_written_fresh st₁.files_dir name st₁.clock objs st₁.disk
      st₁.pickledFiles st₁.file_tree r' p' hmem').1 hmem₁
  · intro r p hp
    rw [hw₂] at hp
    have hfr₂ := saveObjectsLoop_written_fresh st₁.files_dir name st₁.clock objs st₁.disk
      st₁.pickledFiles st₁.file_tree r p hp
    refine ⟨hfr₂.1, ?_⟩
    -- the unsuffixed base path already exists after the first save
    have hrk : r ∈ (saveObjectsLoop st₁.files_dir name st₁.clock objs st₁.disk
        st₁.pickledFiles st₁.file_tree).written.map Prod.fst :=
      List.mem_map.mpr ⟨(r, p), hp, rfl⟩
    rw [saveObjectsLoop_written_keys, ← saveObjectsLoop_written_keys st₀.files_dir name
      st₀.clock objs st₀.disk st₀.pickledFiles st₀.file_tree] at hrk
    obtain ⟨⟨r', p₁⟩, hmem₁, hre⟩ := List.mem_map.mp hrk
    have hre' : r' = r := hre
    subst hre'
    have hbase₁ := saveObjectsLoop_base_mem st₀.files_dir name st₀.clock objs st₀.disk
      st₀.pickledFiles st₀.file_tree r' p₁ hmem₁
    have hbase : (st₀.files_dir ++ "/" ++ (name ++ "_" ++ r')) ++ ".pkl" ∈ st₁.disk :=
      hmono₁ _ hbase₁
    rw [← hfd₁] at hbase
    obtain ⟨k, hk, hpk⟩ := saveObjectsLoop_suffixed st₁.files_dir name st₁.clock objs
      st₁.disk st₁.pickledFiles st₁.file_tree r' p hp hbase
    rw [hfd₁] at hpk
    exact ⟨k, hk, hpk⟩

/-- C8 witness: two saves of checkpoint `"c"` with one real object. -/
theorem c8_save_twice_witness :
    (([("a", some (⟨true, false, 2, 5⟩ : PyObj))].map Prod.fst).Nodup ∧
      ((initial_setup "proj" "P" 0).checkpoint_db.map Prod.fst).Nodup ∧
      ("model", (none : Option PyObj)) ∉ [("a", some (⟨true, false, 2, 5⟩ : PyObj))]) ∧
    (∃ st₁ log₁ st₂ log₂,
      save_checkpoint (initial_setup "proj" "P" 0) "c"
        [("a", some ⟨true, false, 2, 5⟩)] = some (st₁, log₁) ∧
      save_checkpoint st₁ "c" [("a", some ⟨true, false, 2, 5⟩)] = some (st₂, log₂) ∧
      alookup "c" st₂.checkpoint_db = some log₂.info ∧
      keyCount "c" st₂.checkpoint_db = 1 ∧
      (∀ r p, (r, p) ∈ log₁.written →
        p ∈ st₂.disk ∧ p ∉ log₂.written.map Prod.snd) ∧
      (∀ r p, (r, p) ∈ log₂.written → p ∉ st₁.disk ∧
        ∃ k, 1 ≤ k ∧
          p = sufName ((initial_setup "proj" "P" 0).files_dir ++ "/" ++ ("c" ++ "_" ++ r))
            k ".pkl")) :=
  ⟨⟨by decide, by decide, by decide⟩,
   c8_save_twice (initial_setup "proj" "P" 0) "c" [("a", some ⟨true, false, 2, 5⟩)]
     (by decide) (by decide) (by decide)⟩

theorem stem_chars_ne_slash (name role : String) (hnm : ∀ c ∈ name.data, c ≠ '/')
    (hro : ∀ c ∈ role.data, c ≠ '/') :
    ∀ c ∈ (name ++ "_" ++ role).data, c ≠ '/' := by
  intro c hc
  simp only [String.data_append, List.mem_append] at hc
  rcases hc with (hc | hc) | hc
  · exact hnm c hc
  · have hcu : c = '_' := by simpa using hc
    subst hcu
    decide
  · exact hro c hc

/-- C1 (amended): after saving a checkpoint with two roles and deleting one
role's on-disk file, `load_checkpoint` does not raise: it returns the
surviving role's deserialized (and finalized) object, and the deleted role is
silently OMITTED from the result — there is no per-role MISSING marker of
any kind, only a console warning.  (Hypotheses: the two roles are distinct
and the name and roles contain no path separator.) -/
theorem c1_amended (st₀ : MLState) (name ra rb : String) (oa ob : PyObj)
    (hr : ra ≠ rb)
    (hnm : ∀ c ∈ name.data, c ≠ '/')
    (hra : ∀ c ∈ ra.data, c ≠ '/')
    (hrb : ∀ c ∈ rb.data, c ≠ '/') :
    ∃ st₁ log₁ pa pb,
      save_checkpoint st₀ name [(ra, some oa), (rb, some ob)] = some (st₁, log₁) ∧
      log₁.written = [(ra, pa), (rb, pb)] ∧
      pa ≠ pb ∧
      (load_checkpoint (deleteFile st₁ pb) name).1 =
        .ok { checkpoint_info := log₁.info, objects := [(ra, prepObj oa)] } ∧
      rb ∉ ([(ra, prepObj oa)] : List (String × PyObj)).map Prod.fst ∧
      (load_checkpoint (deleteFile st₁ pb) name).2 = deleteFile st₁ pb := by
  have hkeys : (([(ra, some oa), (rb, some ob)] :
      List (String × Option PyObj)).map Prod.fst).Nodup := by
    simp [hr]
  have hnone : ("model", (none : Option PyObj)) ∉
      ([(ra, some oa), (rb, some ob)] : List (String × Option PyObj)) := by
    simp
  have hs₁ := (save_checkpoint_isSome_iff st₀ name [(ra, some oa), (rb, some ob)]
    hkeys).mpr hnone
  obtain ⟨⟨st₁, log₁⟩, hsl₁⟩ := Option.isSome_iff_exists.mp hs₁
  obtain ⟨hw₁, _, _, _, _, hfiles₁, _, hdisk₁, hpk₁, hdb₁, hfd₁, _⟩ :=
    save_checkpoint_spec st₀ name [(ra, some oa), (rb, some ob)] st₁ log₁ hsl₁
  -- name the two resolved paths
  set fin_a := (get_no_overwrite_path st₀.disk
    (st₀.files_dir ++ "/" ++ (name ++ "_" ++ ra)) ".pkl" true false).1.1 with hfina
  set disk₁ := insert fin_a st₀.disk with hdiskm
  set fin_b := (get_no_overwrite_path disk₁
    (st₀.files_dir ++ "/" ++ (name ++ "_" ++ rb)) ".pkl" true false).1.1 with hfinb
  have hL : saveObjectsLoop st₀.files_dir name st₀.clock [(ra, some oa), (rb, some ob)]
      st₀.disk st₀.pickledFiles st₀.file_tree =
      { disk := insert fin_b disk₁,
        pickledFiles := insertReplace (insertReplace st₀.pickledFiles fin_a (prepObj oa))
          fin_b (prepObj ob),
        ftree := update_file_tree (update_file_tree st₀.file_tree
          ["files", takeBasename fin_a] st₀.clock (prepObj oa).nbytes)
          ["files", takeBasename fin_b] st₀.clock (prepObj ob).nbytes,
        written := [(ra, fin_a), (rb, fin_b)],
        hooks := if oa.hasHook then
            ra :: (if ob.hasHook then [rb] else [])
          else (if ob.hasHook then [rb] else []) } := rfl
  have hfresh_b : fin_b ∉ disk₁ :=
    gnop_fresh disk₁ (st₀.files_dir ++ "/" ++ (name ++ "_" ++ rb)) ".pkl" true false
  have hne : fin_a ≠ fin_b := by
    intro he
    exact hfresh_b (he ▸ Finset.mem_insert_self fin_a st₀.disk)
  -- basename round trips
  obtain ⟨ta, hta, hfa_eq⟩ := gnop_path_shape st₀.disk st₀.files_dir (name ++ "_" ++ ra)
    true false (stem_chars_ne_slash name ra hnm hra)
  obtain ⟨tb, htb, hfb_eq⟩ := gnop_path_shape disk₁ st₀.files_dir (name ++ "_" ++ rb)
    true false (stem_chars_ne_slash name rb hnm hrb)
  have hrt_a : st₀.files_dir ++ "/" ++ takeBasename fin_a = fin_a := by
    rw [hfina, hfa_eq, takeBasename_of_append st₀.files_dir ta hta]
  have hrt_b : st₀.files_dir ++ "/" ++ takeBasename fin_b = fin_b := by
    rw [hfinb, hfb_eq, takeBasename_of_append st₀.files_dir tb htb]
  -- the recorded files of the checkpoint entry
  have hwrit : log₁.written = [(ra, fin_a), (rb, fin_b)] := by
    rw [hw₁, hL]
  have hfiles : log₁.info.files =
      [(ra, takeBasename fin_a), (rb, takeBasename fin_b)] := by
    rw [hfiles₁, hL]
    rfl
  refine ⟨st₁, log₁, fin_a, fin_b, hsl₁, hwrit, hne, ?_,
    by simp only [List.map_cons, List.map_nil, List.mem_singleton]
       exact fun h => hr h.symm, ?_⟩
  · -- load after deleting fin_b
    have hdb₂ : alookup name (deleteFile st₁ fin_b).checkpoint_db = some log₁.info := by
      simp only [deleteFile]
      rw [hdb₁]
      exact alookup_insertReplace_self _ _ _
    have hfd₂ : (deleteFile st₁ fin_b).files_dir = st₀.files_dir := by
      simp only [deleteFile]
      exact hfd₁
    have hmem_a : fin_a ∈ (deleteFile st₁ fin_b).disk := by
      simp only [deleteFile]
      refine Finset.mem_erase.mpr ⟨hne, ?_⟩
      rw [hdisk₁, hL]
      refine Finset.mem_insert_of_mem (Finset.mem_insert_of_mem
        (Finset.mem_insert_of_mem (Finset.mem_insert_of_mem ?_)))
      exact Finset.mem_insert_of_mem (Finset.mem_insert_self _ _)
    have hnmem_b : fin_b ∉ (deleteFile st₁ fin_b).disk := by
      simp only [deleteFile]
      exact Finset.not_mem_erase _ _
    have hlook_a : alookup fin_a (deleteFile st₁ fin_b).pickledFiles =
        some (prepObj oa) := by
      simp only [deleteFile]
      rw [alookup_filter_ne _ _ _ hne, hpk₁, hL]
      show alookup fin_a (insertReplace (insertReplace st₀.pickledFiles fin_a (prepObj oa))
        fin_b (prepObj ob)) = some (prepObj oa)
      rw [alookup_insertReplace_ne _ _ _ _ hne]
      exact alookup_insertReplace_self _ _ _
    simp only [load_checkpoint, hdb₂]
    rw [hfiles]
    simp only [loadFilesLoop, hfd₂, hrt_a, hrt_b, hmem_a, if_true, hlook_a,
      hnmem_b, if_false]
    rfl
  · cases h : alookup name (deleteFile st₁ fin_b).checkpoint_db <;>
      simp [load_checkpoint, h]

/-- C1 (counterexample): concrete two-role checkpoint, role `"b"`'s file
deleted afterwards.  `load_checkpoint` returns the surviving object for
`"a"` but the result contains NO entry of any kind for `"b"` — the claimed
per-role MISSING marker does not exist; the deleted role is silently
omitted. -/
theorem c1_counterexample :
    ∃ st₁ log₁,
      save_checkpoint (initial_setup "proj" "P" 0) "c"
        [("a", some ⟨true, false, 7, 3⟩), ("b", some ⟨false, false, 8, 4⟩)] =
          some (st₁, log₁) ∧
      ("b", "proj/files/c_b.pkl") ∈ log₁.written ∧
      (load_checkpoint (deleteFile st₁ "proj/files/c_b.pkl") "c").1 =
        .ok { checkpoint_info := log₁.info,
              objects := [("a", ⟨true, true, 7, 3⟩)] } ∧
      "b" ∉ ([("a", (⟨true, true, 7, 3⟩ : PyObj))].map Prod.fst) := by
  refine ⟨_, _, rfl, by decide, rfl, by decide⟩

/-- C1 witness: the amended partial-load behaviour at a concrete store. -/
theorem c1_amended_witness :
    (("a" : String) ≠ "b" ∧
      (∀ c ∈ ("c" : String).data, c ≠ '/') ∧
      (∀ c ∈ ("a" : String).data, c ≠ '/') ∧
      (∀ c ∈ ("b" : String).data, c ≠ '/')) ∧
    (∃ st₁ log₁ pa pb,
      save_checkpoint (initial_setup "proj" "P" 0) "c"
        [("a", some ⟨true, false, 7, 3⟩), ("b", some ⟨false, false, 8, 4⟩)] =
          some (st₁, log₁) ∧
      log₁.written = [("a", pa), ("b", pb)] ∧
      pa ≠ pb ∧
      (load_checkpoint (deleteFile st₁ pb) "c").1 =
        .ok { checkpoint_info := log₁.info,
              objects := [("a", prepObj ⟨true, false, 7, 3⟩)] } ∧
      "b" ∉ ([("a", prepObj ⟨true, false, 7, 3⟩)] : List (String × PyObj)).map Prod.fst ∧
      (load_checkpoint (deleteFile st₁ pb) "c").2 = deleteFile st₁ pb) :=
  ⟨⟨by decide, by decide, by decide, by decide⟩,
   c1_amended (initial_setup "proj" "P" 0) "c" "a" "b" ⟨true, false, 7, 3⟩
     ⟨false, false, 8, 4⟩ (by decide) (by decide) (by decide) (by decide)⟩

/-- C6 (counterexample): the claim fails for arbitrary backup directories and
source lists.  First scenario: the backup directory already holds a
same-named file, so the very first call reports ALREADY_PRESENT (`some
false`) instead of COPIED for an existing source.  Second scenario: two
existing sources share a basename, so the first call reports
`[COPIED, ALREADY_PRESENT]`, not COPIED for every existing source.  Third
scenario: a source that does not exist initially coincides with a
backup-target path, so the first copy brings it into existence and the very
first call already reports ALREADY_PRESENT (`some false`) for it instead of
MISSING. -/
theorem c6_counterexample :
    (["a", "f"] ∈ ({["a", "f"], ["b", "f"]} : Finset (List String)) ∧
      (make_non_duplicate_backups [["a", "f"]] ["b"]
        {["a", "f"], ["b", "f"]}).1 = [some false]) ∧
    (["a", "f"] ∈ ({["a", "f"], ["c", "f"]} : Finset (List String)) ∧
      ["c", "f"] ∈ ({["a", "f"], ["c", "f"]} : Finset (List String)) ∧
      (make_non_duplicate_backups [["a", "f"], ["c", "f"]] ["b"]
        {["a", "f"], ["c", "f"]}).1 = [some true, some false]) ∧
    (["b", "f"] ∉ ({["a", "f"]} : Finset (List String)) ∧
      (make_non_duplicate_backups [["a", "f"], ["b", "f"]] ["b"]
        {["a", "f"]}).1 = [some true, some false]) := by
  refine ⟨⟨?_, ?_⟩, ⟨?_, ?_, ?_⟩, ?_, ?_⟩ <;> decide

/-- C6 (amended): `make_non_duplicate_backups` returns a list of the same
length and order as its input, and — provided the backup folder path is
non-empty (the real `os.makedirs("")` raises on an empty one), no source
path coincides with the backup folder or one of its ancestor directories
(which the first copy's `makedirs` would create — in the real code such a
source then exists as a directory and the subsequent `copy2`/`makedirs`
raises), no backup-target path exists beforehand, the existing sources have
pairwise-distinct basenames, and no missing source coincides with a
backup-target path — calling it twice with the same arguments yields COPIED
then ALREADY_PRESENT for every existing source and MISSING both times for
every missing one. -/
theorem c6_amended (fs : Finset (List String)) (paths : List (List String))
    (bdir : List String)
    (Hb : bdir ≠ [])
    (H0 : ∀ p ∈ paths, p ∉ ancestorDirs bdir)
    (H1 : ∀ p ∈ paths, p ∈ fs → bdir ++ [pathBase p] ∉ fs)
    (H2 : ((paths.filter (· ∈ fs)).map pathBase).Nodup)
    (H3 : ∀ p ∈ paths, p ∉ fs → ∀ q ∈ paths, p ≠ bdir ++ [pathBase q]) :
    (make_non_duplicate_backups paths bdir fs).1.length = paths.length ∧
    (make_non_duplicate_backups paths bdir fs).1 =
      paths.map (fun p => if p ∈ fs then some true else none) ∧
    (make_non_duplicate_backups paths bdir
        (make_non_duplicate_backups paths bdir fs).2).1 =
      paths.map (fun p => if p ∈ fs then some false else none) := by
  obtain ⟨hl, hmono, htgt, hub⟩ :=
    mnb_first paths bdir paths fs (fun x hx => hx) H0 H1 H2 H3
  refine ⟨mnb_length paths bdir fs, hl, ?_⟩
  set fs' := (make_non_duplicate_backups paths bdir fs).2 with hfs'
  have hiff : ∀ p ∈ paths, (p ∈ fs' ↔ p ∈ fs) := by
    intro p hp
    constructor
    · intro hpm
      by_cases hpf : p ∈ fs
      · exact hpf
      · exfalso
        rcases hub p hpm with h | h | ⟨q, hq, hqm, hqe⟩
        · exact hpf h
        · exact H0 p hp h
        · exact H3 p hp hpf q hq hqe
    · intro hpf
      exact hmono p hpf
  have hnoop : ∀ p ∈ paths, p ∈ fs' → bdir ++ [pathBase p] ∈ fs' := by
    intro p hp hpm
    exact htgt p hp ((hiff p hp).mp hpm)
  rw [mnb_noop paths bdir fs' hnoop]
  dsimp only
  apply List.map_congr_left
  intro p hp
  by_cases hpf : p ∈ fs
  · simp [hpf, (hiff p hp).mpr hpf]
  · have hnf : p ∉ fs' := fun hc => hpf ((hiff p hp).mp hc)
    simp [hpf, hnf]

/-- C6 witness: two existing sources with distinct basenames and one missing
source, backed up into a fresh directory, twice. -/
theorem c6_amended_witness :
    ((["b"] : List String) ≠ [] ∧
      (∀ p ∈ ([["s", "f"], ["s", "g"], ["m", "x"]] : List (List String)),
        p ∉ ancestorDirs ["b"]) ∧
      (∀ p ∈ ([["s", "f"], ["s", "g"], ["m", "x"]] : List (List String)),
        p ∈ ({["s", "f"], ["s", "g"]} : Finset (List String)) →
          ["b"] ++ [pathBase p] ∉ ({["s", "f"], ["s", "g"]} : Finset (List String))) ∧
      ((([["s", "f"], ["s", "g"], ["m", "x"]] : List (List String)).filter
          (· ∈ ({["s", "f"], ["s", "g"]} : Finset (List String)))).map pathBase).Nodup ∧
      (∀ p ∈ ([["s", "f"], ["s", "g"], ["m", "x"]] : List (List String)),
        p ∉ ({["s", "f"], ["s", "g"]} : Finset (List String)) →
          ∀ q ∈ ([["s", "f"], ["s", "g"], ["m", "x"]] : List (List String)),
            p ≠ ["b"] ++ [pathBase q])) ∧
    ((make_non_duplicate_backups [["s", "f"], ["s", "g"], ["m", "x"]] ["b"]
        {["s", "f"], ["s", "g"]}).1.length =
        ([["s", "f"], ["s", "g"], ["m", "x"]] : List (List String)).length ∧
      (make_non_duplicate_backups [["s", "f"], ["s", "g"], ["m", "x"]] ["b"]
        {["s", "f"], ["s", "g"]}).1 =
        ([["s", "f"], ["s", "g"], ["m", "x"]] : List (List String)).map
          (fun p => if p ∈ ({["s", "f"], ["s", "g"]} : Finset (List String))
            then some true else none) ∧
      (make_non_duplicate_backups [["s", "f"], ["s", "g"], ["m", "x"]] ["b"]
        (make_non_duplicate_backups [["s", "f"], ["s", "g"], ["m", "x"]] ["b"]
          {["s", "f"], ["s", "g"]}).2).1 =
        ([["s", "f"], ["s", "g"], ["m", "x"]] : List (List String)).map
          (fun p => if p ∈ ({["s", "f"], ["s", "g"]} : Finset (List String))
            then some false else none)) :=
  ⟨⟨by decide, by decide, by decide, by decide, by decide⟩,
   c6_amended {["s", "f"], ["s", "g"]} [["s", "f"], ["s", "g"], ["m", "x"]] ["b"]
     (by decide) (by decide) (by decide) (by decide) (by decide)⟩
